import Mathlib

/-!
Verification of hugot: tensor construction, metadata loading, the two
batching baselines and the training session.

A shallow embedding of four Go source files of `knights-analytics/hugo`:

* `pipelineBackends/model_go.go`: `loadInputOutputMetaGo`, `createInputTensorsGo`
* `baselines/golang/baselines.go`: the sequential `extractFeatures`
* `baselines/golang/concurrent_baselines.go`: the concurrent `extractFeatures`
* `hugot_training.go`: `newTrainingSession`

Go slices are lists, every index expression is bounds-checked and a failed
check is the outcome `Failure.panic` with its cause; a non-nil `error` return
is `Failure.err msg`. Go's `int` is the 64-bit two's complement integer: the
one product the code computes is wrapped. Loops are recursive functions over
the loop variables. Functions of other packages (`gonnx`, `RunPipeline`,
`LoadModel`, ...) are parameters.
-/

namespace Hugot

/-! ## Go outcomes and checked slice operations -/

/-- The causes of a panic that the embedded code can run into. -/
inductive Panic where
  /-- `index out of range` of an index expression. -/
  | indexOutOfRange
  /-- `makeslice: len out of range` of `make`. -/
  | makeLenOutOfRange
  /-- `slice bounds out of range` of a slice expression. -/
  | sliceBoundsOutOfRange
  /-- `nil pointer dereference` of a field read through a nil pointer. -/
  | nilDereference
  /-- An explicit `panic(...)` call. -/
  | explicit
  /-- A panic raised inside a library call. -/
  | library
  deriving DecidableEq, Repr

/-- The two ways a Go call ends without its normal result: a non-nil `error`
value, or a panic. -/
inductive Failure where
  | err (msg : String)
  | panic (cause : Panic)
  deriving DecidableEq, Repr

/-- Go `make([]T, len(xs))` for a slice `xs` that exists and whose elements are
not smaller than `T`: a slice of `n` zero values. Such a length is in the
range of `make`, which leaves the negative length as the only panic. -/
def makeSlice {α : Type} (zero : α) (n : Int) : Except Failure (List α) :=
  if n < 0 then .error (.panic .makeLenOutOfRange) else .ok (List.replicate n.toNat zero)

/-- Go's `int` arithmetic on 64-bit platforms: the result of an operation is
the mathematical result wrapped into `[-2^63, 2^63)`. -/
def wrapInt (x : Int) : Int :=
  (x + 9223372036854775808) % 18446744073709551616 - 9223372036854775808

/-- The largest number of bytes `make` asks the allocator for (`maxAlloc` of the
Go runtime on 64-bit platforms, `1 << 48`). -/
def maxAlloc : Int := 281474976710656

/-- Go `make([]T, n)` for an `int` value `n` and elements of `elemSize` bytes:
a slice of `n` zero values; panics with `len out of range` when `n < 0` or
when `n * elemSize` bytes are more than `maxAlloc`. -/
def makeSliceInt {α : Type} (elemSize : Int) (zero : α) (n : Int) : Except Failure (List α) :=
  if n < 0 ∨ maxAlloc < n * elemSize then .error (.panic .makeLenOutOfRange)
  else .ok (List.replicate n.toNat zero)

/-- Go `xs[i]` as an rvalue: panics when `i` is out of range. -/
def getAt {α : Type} (xs : List α) (i : Nat) : Except Failure α :=
  match xs[i]? with
  | some v => .ok v
  | none => .error (.panic .indexOutOfRange)

/-- Go `xs[i] = v`: panics when `i` is out of range. -/
def setAt {α : Type} (xs : List α) (i : Nat) (v : α) : Except Failure (List α) :=
  if i < xs.length then .ok (xs.set i v) else .error (.panic .indexOutOfRange)

/-! ## `pipelineBackends/model_go.go` -/

/-- One dimension of a declared ONNX shape (`onnx.Dim` of gonnx): only the two
fields the code reads. -/
structure Dim where
  IsDynamic : Bool
  Size : Int
  deriving DecidableEq, Repr

/-- The part of `*gonnx.Model` that `loadInputOutputMetaGo` queries: the
declared names in order and the two name-to-shape maps (a Go map lookup of an
absent key yields the nil shape, here `[]`). -/
structure GonnxModel where
  InputNames : List String
  InputShapes : String → List Dim
  OutputNames : List String
  OutputShapes : String → List Dim

/-- `InputOutputInfo`: a name and its dimension sizes. -/
structure InputOutputInfo where
  Name : String
  Dimensions : List Int
  deriving DecidableEq, Repr

/-- The loop `for i, y := range shape { dimensions[i] = ... }` from index `i`
on, over the not yet visited part of the shape. -/
def fillDimensions : List Dim → Nat → List Int → Except Failure (List Int)
  | [], _, dimensions => .ok dimensions
  | y :: rest, i, dimensions =>
    (if y.IsDynamic then setAt dimensions i (-1) else setAt dimensions i y.Size) >>=
      fun d => fillDimensions rest (i + 1) d

/-- The body of one iteration of `for _, name := range names`: build the
dimensions of `name` and append the `InputOutputInfo`. -/
def loadOneMeta (shapes : String → List Dim) (acc : List InputOutputInfo) (name : String) :
    Except Failure (List InputOutputInfo) :=
  let shape := shapes name
  makeSlice (0 : Int) (shape.length : Int) >>= fun dimensions =>
  fillDimensions shape 0 dimensions >>= fun dimensions =>
  .ok (acc ++ [{ Name := name, Dimensions := dimensions }])

/-- The loop `for _, name := range names`. -/
def loadMetaLoop (shapes : String → List Dim) :
    List String → List InputOutputInfo → Except Failure (List InputOutputInfo)
  | [], acc => .ok acc
  | name :: rest, acc => loadOneMeta shapes acc name >>= fun acc1 => loadMetaLoop shapes rest acc1

/-- `loadInputOutputMetaGo`: the input and the output metadata of a model. -/
def loadInputOutputMetaGo (model : GonnxModel) :
    Except Failure (List InputOutputInfo × List InputOutputInfo) :=
  loadMetaLoop model.InputShapes model.InputNames [] >>= fun inputs =>
  loadMetaLoop model.OutputShapes model.OutputNames [] >>= fun outputs =>
  .ok (inputs, outputs)

/-- One tokenized input of a batch: the three fields `createInputTensorsGo`
reads (unsigned integers in Go, converted with `int64(...)`). -/
structure TokenizedInput where
  TokenIDs : List Nat
  TypeIDs : List Nat
  AttentionMask : List Nat
  deriving DecidableEq, Repr

/-- The value built by `tensor.New(tensor.WithShape(...), tensor.WithBacking(...))`:
the shape and the backing slice it was given. -/
structure Tensor where
  shape : List Int
  backing : List Int
  deriving DecidableEq, Repr

/-- The call `tensor.New(tensor.WithShape(shape...), tensor.WithBacking(backing))`
of the `gorgonia.org/tensor` package: it panics on a negative dimension and
builds the tensor otherwise. -/
def tensorNew (shape : List Int) (backing : List Int) : Except Failure Tensor :=
  if shape.any (fun d => decide (d < 0)) then .error (.panic .library)
  else .ok { shape := shape, backing := backing }

/-- A Go `map[string]tensor.Tensor` as an association list without duplicate keys. -/
abbrev TensorMap := List (String × Tensor)

/-- Go `m[key] = v`. -/
def mapSet : TensorMap → String → Tensor → TensorMap
  | [], key, v => [(key, v)]
  | (k, w) :: rest, key, v => if k = key then (key, v) :: rest else (k, w) :: mapSet rest key v

/-- Go `v, ok := m[key]`. -/
def mapGet : TensorMap → String → Option Tensor
  | [], _ => none
  | (k, w) :: rest, key => if k = key then some w else mapGet rest key

/-- `PipelineBatch`: the fields `createInputTensorsGo` reads and writes. -/
structure PipelineBatch where
  Input : List TokenizedInput
  MaxSequenceLength : Int
  InputValues : TensorMap
  PaddingMask : List (List Bool)
  deriving DecidableEq, Repr

/-- The variables live in the loop over positions `k`. -/
structure FillState where
  backingSlice : List Int
  counter : Nat
  inputPaddingMask : List Bool
  deriving DecidableEq, Repr

/-- The error value `fmt.Errorf("input %s not recognized", name)`. -/
def notRecognized (name : String) : Failure :=
  .err ("input " ++ name ++ " not recognized")

/-- The body of `for k := 0; k < batch.MaxSequenceLength; k++`. -/
def fillPosition (name : String) (input : TokenizedInput) (k : Nat) (s : FillState) :
    Except Failure FillState :=
  let length := input.TokenIDs.length
  (if k + 1 ≤ length then
    if name = "input_ids" then
      getAt input.TokenIDs k >>= fun v =>
      setAt s.backingSlice s.counter (Int.ofNat v) >>= fun bs =>
      setAt s.inputPaddingMask k true >>= fun pm =>
      .ok { s with backingSlice := bs, inputPaddingMask := pm }
    else if name = "token_type_ids" then
      getAt input.TypeIDs k >>= fun v =>
      setAt s.backingSlice s.counter (Int.ofNat v) >>= fun bs =>
      .ok { s with backingSlice := bs }
    else if name = "attention_mask" then
      getAt input.AttentionMask k >>= fun v =>
      setAt s.backingSlice s.counter (Int.ofNat v) >>= fun bs =>
      .ok { s with backingSlice := bs }
    else
      .error (notRecognized name)
  else
    setAt s.backingSlice s.counter 0 >>= fun bs =>
    .ok { s with backingSlice := bs }) >>= fun s1 =>
  .ok { s1 with counter := s1.counter + 1 }

/-- The loop `for k := 0; k < batch.MaxSequenceLength; k++`, with `n`
iterations left and the next position `k`. -/
def fillPositions (name : String) (input : TokenizedInput) :
    Nat → Nat → FillState → Except Failure FillState
  | 0, _, s => .ok s
  | n + 1, k, s => fillPosition name input k s >>= fun s1 => fillPositions name input n (k + 1) s1

/-- The variables live in the loop over the records of the batch. -/
structure RecordState where
  backingSlice : List Int
  counter : Nat
  paddingMasks : List (List Bool)
  deriving DecidableEq, Repr

/-- The body of `for j, input := range batch.Input`. -/
def fillRecord (name : String) (maxSequenceLength : Int) (j : Nat) (input : TokenizedInput)
    (s : RecordState) : Except Failure RecordState :=
  makeSliceInt 1 false maxSequenceLength >>= fun inputPaddingMask =>
  fillPositions name input maxSequenceLength.toNat 0
    { backingSlice := s.backingSlice, counter := s.counter,
      inputPaddingMask := inputPaddingMask } >>= fun fs =>
  (if name = "input_ids" then setAt s.paddingMasks j fs.inputPaddingMask
   else .ok s.paddingMasks) >>= fun pms =>
  .ok { backingSlice := fs.backingSlice, counter := fs.counter, paddingMasks := pms }

/-- The loop `for j, input := range batch.Input`, from record index `j` on. -/
def fillRecords (name : String) (maxSequenceLength : Int) :
    List TokenizedInput → Nat → RecordState → Except Failure RecordState
  | [], _, s => .ok s
  | input :: rest, j, s =>
    fillRecord name maxSequenceLength j input s >>= fun s1 =>
    fillRecords name maxSequenceLength rest (j + 1) s1

/-- The body of `for _, inputMeta := range inputsMeta`, on the pair
`(paddingMasks, inputMap)`. -/
def fillTensor (batch : PipelineBatch) (inputMeta : InputOutputInfo)
    (s : List (List Bool) × TensorMap) : Except Failure (List (List Bool) × TensorMap) :=
  let batchSize : Int := batch.Input.length
  let tensorSize := wrapInt (batchSize * batch.MaxSequenceLength)
  makeSliceInt 8 (0 : Int) tensorSize >>= fun backingSlice =>
  fillRecords inputMeta.Name batch.MaxSequenceLength batch.Input 0
    { backingSlice := backingSlice, counter := 0, paddingMasks := s.1 } >>= fun rs =>
  tensorNew [batchSize, batch.MaxSequenceLength] rs.backingSlice >>= fun t =>
  .ok (rs.paddingMasks, mapSet s.2 inputMeta.Name t)

/-- The loop `for _, inputMeta := range inputsMeta`. -/
def fillTensors (batch : PipelineBatch) :
    List InputOutputInfo → List (List Bool) × TensorMap →
      Except Failure (List (List Bool) × TensorMap)
  | [], s => .ok s
  | inputMeta :: rest, s => fillTensor batch inputMeta s >>= fun s1 => fillTensors batch rest s1

/-- `createInputTensorsGo`: on a nil error return, the batch with
`InputValues` and `PaddingMask` stored. -/
def createInputTensorsGo (batch : PipelineBatch) (inputsMeta : List InputOutputInfo) :
    Except Failure PipelineBatch :=
  let batchSize : Int := batch.Input.length
  makeSlice ([] : List Bool) batchSize >>= fun paddingMasks =>
  fillTensors batch inputsMeta (paddingMasks, []) >>= fun r =>
  .ok { batch with InputValues := r.2, PaddingMask := r.1 }

/-! ### Vocabulary of the proofs about `createInputTensorsGo`

These definitions are not part of the embedding: they name the values that the
lemmas below show the loops to compute. -/

/-- The names `createInputTensorsGo` has a case for. -/
def Recognized (name : String) : Prop :=
  name = "input_ids" ∨ name = "token_type_ids" ∨ name = "attention_mask"

/-- The field of a record that the `switch` reads for a recognized name. -/
def fieldOf (name : String) (input : TokenizedInput) : List Nat :=
  if name = "input_ids" then input.TokenIDs
  else if name = "token_type_ids" then input.TypeIDs
  else input.AttentionMask

/-- The value that ends up in the backing slice for position `k` of a record:
the field's `k`-th value below the record's token length, the pad `0` from there on. -/
def cellOf (name : String) (input : TokenizedInput) (k : Nat) : Int :=
  if k < input.TokenIDs.length then Int.ofNat ((fieldOf name input).getD k 0) else 0

/-- The `n` cells of one record, in position order. -/
def rowCells (name : String) (n : Nat) (input : TokenizedInput) : List Int :=
  (List.range' 0 n).map (cellOf name input)

/-- The padding-mask row of a record with `len` tokens over `n` positions. -/
def paddingRow (n len : Nat) : List Bool :=
  (List.range' 0 n).map fun k => decide (k < len)

/-! ### Concrete batches and declared inputs -/

/-- The batch of the spec's example: token lengths `[3, 5, 2]`, with
`MaxSequenceLength` 5 and three fields of equal length per record. -/
def batch352 : PipelineBatch :=
  { Input :=
      [{ TokenIDs := [101, 2023, 102], TypeIDs := [0, 0, 1], AttentionMask := [1, 1, 1] },
       { TokenIDs := [101, 7592, 2088, 999, 102], TypeIDs := [0, 0, 0, 1, 1],
         AttentionMask := [1, 1, 1, 1, 1] },
       { TokenIDs := [101, 102], TypeIDs := [0, 1], AttentionMask := [1, 1] }],
    MaxSequenceLength := 5, InputValues := [], PaddingMask := [] }

/-- The three recognized names as declared inputs (the dimensions play no part). -/
def inputsMeta3 : List InputOutputInfo :=
  [{ Name := "input_ids", Dimensions := [-1, -1] },
   { Name := "token_type_ids", Dimensions := [-1, -1] },
   { Name := "attention_mask", Dimensions := [-1, -1] }]

/-- The batch of the example with `MaxSequenceLength` 2, below every record's
token length but the last one's. -/
def batch352Short : PipelineBatch :=
  { batch352 with MaxSequenceLength := 2 }

/-- A declared input that `createInputTensorsGo` has no case for. -/
def pixelValuesMeta : InputOutputInfo :=
  { Name := "pixel_values", Dimensions := [-1, 3, 224, 224] }

/-- The batch of the example with `MaxSequenceLength` `2^62`: the product
`3 * 2^62` does not fit Go's `int`. -/
def batch352Huge : PipelineBatch :=
  { batch352 with MaxSequenceLength := 4611686018427387904 }

/-- A record with one token. -/
def oneTokenRecord : TokenizedInput :=
  { TokenIDs := [101], TypeIDs := [0], AttentionMask := [1] }

/-- A batch of `2^32` records of one token each with `MaxSequenceLength` `2^32`:
the product `2^64` wraps to `0` in Go's `int`. -/
def wrappingBatch : PipelineBatch :=
  { Input := List.replicate 4294967296 oneTokenRecord,
    MaxSequenceLength := 4294967296, InputValues := [], PaddingMask := [] }

/-- The empty batch. -/
def emptyBatch : PipelineBatch :=
  { Input := [], MaxSequenceLength := 0, InputValues := [], PaddingMask := [] }

/-- A batch of two records without any token. -/
def zeroTokenBatch : PipelineBatch :=
  { Input := [{ TokenIDs := [], TypeIDs := [], AttentionMask := [] },
              { TokenIDs := [], TypeIDs := [], AttentionMask := [] }],
    MaxSequenceLength := 0, InputValues := [], PaddingMask := [] }

/-! ## `baselines/golang`: shared parts of the two benchmark programs -/

/-- `const batchSize = 32` of both `extractFeatures` functions. -/
def batchSize : Nat := 32

/-- The pair `(batchResult, err)` that `featurePipeline.RunPipeline(batch)`
hands back. `batchResult` is a pointer to the pipeline output: `none` is the
nil pointer, `some embeddings` a pointer to an output whose `Embeddings` field
holds `embeddings`. For `err`, `none` is the nil error. The embedding type `E`
is never inspected by the code. -/
structure RunResult (E : Type) where
  batchResult : Option (List E)
  err : Option String
  deriving DecidableEq, Repr

/-- The field read `batchResult.Embeddings`: a nil pointer dereference when
`batchResult` is nil. -/
def RunResult.Embeddings {E : Type} (r : RunResult E) : Except Failure (List E) :=
  match r.batchResult with
  | some embeddings => .ok embeddings
  | none => .error (.panic .nilDereference)

/-! ## `baselines/golang/baselines.go`: the sequential `extractFeatures` -/

namespace Baselines

/-- The variables of the sequential loop, with the calls made to
`RunPipeline` so far (`submitted`, oldest first). -/
structure LoopState (E : Type) where
  output : List E
  totalProcessed : Nat
  batch : List String
  submitted : List (List String)
  deriving DecidableEq, Repr

/-- The body of `for _, row := range records`. -/
def loopBody {E : Type} (RunPipeline : List String → RunResult E) (s : LoopState E)
    (row : List String) : Except Failure (LoopState E) :=
  getAt row 5 >>= fun text =>
  let batch := s.batch ++ [text]
  if batch.length = batchSize then
    let r := RunPipeline batch
    if r.err.isSome then
      -- `continue`: nothing but the appended row and the call is recorded
      .ok { s with batch := batch, submitted := s.submitted ++ [batch] }
    else
      r.Embeddings >>= fun embeddings =>
      .ok { output := s.output ++ embeddings,
            totalProcessed := s.totalProcessed + batchSize,
            batch := [],
            submitted := s.submitted ++ [batch] }
  else
    .ok { s with batch := batch }

/-- The loop `for _, row := range records`. -/
def loop {E : Type} (RunPipeline : List String → RunResult E) :
    List (List String) → LoopState E → Except Failure (LoopState E)
  | [], s => .ok s
  | row :: rest, s => loopBody RunPipeline s row >>= fun s1 => loop RunPipeline rest s1

/-- The sequential `extractFeatures` (the measured duration left out): the
final loop state, whose `output` and `totalProcessed` are the returned values. -/
def extractFeatures {E : Type} (RunPipeline : List String → RunResult E)
    (records : List (List String)) : Except Failure (LoopState E) :=
  loop RunPipeline records
    { output := [], totalProcessed := 0, batch := [], submitted := [] } >>= fun s =>
  if s.batch.length > 0 then
    let r := RunPipeline s.batch
    if r.err.isSome then
      .error (.panic .explicit)
    else
      r.Embeddings >>= fun embeddings =>
      .ok { s with output := s.output ++ embeddings,
                   totalProcessed := s.totalProcessed + s.batch.length,
                   submitted := s.submitted ++ [s.batch] }
  else
    .ok s

/-- A pipeline that fails on every batch of exactly 32 texts, handing back
`(nil, err)`, and otherwise returns each text as its own embedding. -/
def failOnFull (batch : List String) : RunResult String :=
  if batch.length = 32 then { batchResult := none, err := some "execution error" }
  else { batchResult := some batch, err := none }

/-- A CSV row whose sixth column is `text`. -/
def rowOf (text : String) : List String := ["", "", "", "", "", text]

/-- The texts `t0 … t32`. -/
def texts33 : List String :=
  ["t0", "t1", "t2", "t3", "t4", "t5", "t6", "t7", "t8", "t9", "t10", "t11", "t12", "t13",
   "t14", "t15", "t16", "t17", "t18", "t19", "t20", "t21", "t22", "t23", "t24", "t25", "t26",
   "t27", "t28", "t29", "t30", "t31", "t32"]

/-- Thirty-three records, one per text of `texts33`. -/
def records33 : List (List String) := texts33.map rowOf

end Baselines

/-! ## `baselines/golang/concurrent_baselines.go`: the concurrent `extractFeatures` -/

namespace ConcurrentBaselines

/-- A Go slice together with the part of its backing array between `len` and
`cap`, which a reslice can bring into view. -/
structure GoSlice (α : Type) where
  elems : List α
  spare : List α
  deriving DecidableEq, Repr

/-- Go `s[:n]`: panics when `n` exceeds the capacity. -/
def resliceTo {α : Type} (s : GoSlice α) (n : Nat) : Except Failure (GoSlice α) :=
  if n ≤ s.elems.length + s.spare.length then
    .ok { elems := (s.elems ++ s.spare).take n, spare := (s.elems ++ s.spare).drop n }
  else .error (.panic .sliceBoundsOutOfRange)

/-- `numWorkers := 4`. -/
def numWorkers : Nat := 4

/-- The bound of `records = records[:5000]`. -/
def recordLimit : Nat := 5000

/-- The variables of the batch producer goroutine, with the batches it has
sent on `batchCh` so far (`sent`, oldest first). -/
structure ProducerState where
  batch : List String
  sent : List (List String)
  deriving DecidableEq, Repr

/-- The body of the producer loop `for _, row := range records`, for batch size `B`. -/
def producerBody (B : Nat) (s : ProducerState) (row : List String) :
    Except Failure ProducerState :=
  getAt row 5 >>= fun text =>
  let batch := s.batch ++ [text]
  if batch.length = B then
    .ok { batch := [], sent := s.sent ++ [batch] }
  else
    .ok { s with batch := batch }

/-- The producer loop `for _, row := range records`. -/
def producerLoop (B : Nat) : List (List String) → ProducerState → Except Failure ProducerState
  | [], s => .ok s
  | row :: rest, s => producerBody B s row >>= fun s1 => producerLoop B rest s1

/-- The batch producer goroutine up to `close(batchCh)`: the batches it sends
on `batchCh`, in send order. -/
def batchProducer (B : Nat) (records : List (List String)) :
    Except Failure (List (List String)) :=
  producerLoop B records { batch := [], sent := [] } >>= fun s =>
  if s.batch.length > 0 then .ok (s.sent ++ [s.batch]) else .ok s.sent

/-- The value a worker sends on `resultCh`: `result{embeddings, err}`. -/
structure Result (E : Type) where
  embeddings : List E
  err : Option String
  deriving DecidableEq, Repr

/-- Where a worker goroutine stands: at the receive of
`for batch := range batchCh`, at the send `resultCh <- ...` holding the value
it is going to send, or past the loop with `wg.Done()` run. -/
inductive Worker (E : Type) where
  | receiving
  | sending (r : Result E)
  | done
  deriving DecidableEq, Repr

/-- The state of the goroutines and channels of the concurrent
`extractFeatures`. `toSend` is what the producer still has to send on
`batchCh`; `returned` says that the collecting loop of the main goroutine has
ended, so that `output` and `totalProcessed` are the returned values; `calls`
counts the calls of `RunPipeline` made so far. -/
structure Sys (E : Type) where
  toSend : List (List String)
  batchClosed : Bool
  batchCh : List (List String)
  workers : List (Worker E)
  resultCh : List (Result E)
  resultClosed : Bool
  output : List E
  totalProcessed : Nat
  returned : Bool
  calls : Nat
  deriving DecidableEq, Repr

/-- The atomic moves of the goroutines: every one is a channel operation
together with the local code that follows it up to the next one. -/
inductive Action where
  | produce
  | closeBatch
  | receive (i : Nat)
  | workerExit (i : Nat)
  | sendResult (i : Nat)
  | closeResult
  | collect
  | finish
  deriving DecidableEq, Repr

/-- One move from state `s`: `none` when the move is blocked, a `Failure` when
the move panics (which ends the process), the next state otherwise. Both
channels have capacity `cap`. `RunPipeline n batch` is what the call number
`n` of `featurePipeline.RunPipeline` hands back for `batch`.

* `produce`: `batchCh <- batch` (blocked while the buffer is full);
* `closeBatch`: `close(batchCh)` after the last send;
* `receive i`: worker `i` takes a batch, calls `RunPipeline` on it and reads
  `batchResult.Embeddings` to build the value it is going to send;
* `workerExit i`: worker `i` finds `batchCh` closed and drained, runs `wg.Done()`;
* `sendResult i`: worker `i` sends `result{batchResult.Embeddings, err}`;
* `closeResult`: `wg.Wait()` returns, `close(resultCh)`;
* `collect`: one iteration of `for res := range resultCh`;
* `finish`: that loop ends on the closed, drained `resultCh`. -/
def step {E : Type} (RunPipeline : Nat → List String → RunResult E) (cap : Nat) (s : Sys E) :
    Action → Option (Except Failure (Sys E))
  | .produce =>
    match s.toSend with
    | b :: rest =>
      if s.batchCh.length < cap then
        some (.ok { s with toSend := rest, batchCh := s.batchCh ++ [b] })
      else none
    | [] => none
  | .closeBatch =>
    match s.toSend, s.batchClosed with
    | [], false => some (.ok { s with batchClosed := true })
    | _, _ => none
  | .receive i =>
    match s.workers[i]?, s.batchCh with
    | some .receiving, b :: rest =>
      match (RunPipeline s.calls b).Embeddings with
      | .error f => some (.error f)
      | .ok embeddings =>
        some (.ok { s with
          batchCh := rest, calls := s.calls + 1,
          workers := s.workers.set i
            (.sending { embeddings := embeddings, err := (RunPipeline s.calls b).err }) })
    | _, _ => none
  | .workerExit i =>
    match s.workers[i]?, s.batchCh, s.batchClosed with
    | some .receiving, [], true => some (.ok { s with workers := s.workers.set i .done })
    | _, _, _ => none
  | .sendResult i =>
    match s.workers[i]? with
    | some (.sending r) =>
      if s.resultCh.length < cap then
        some (.ok { s with resultCh := s.resultCh ++ [r],
                           workers := s.workers.set i .receiving })
      else none
    | _ => none
  | .closeResult =>
    if s.workers.all (fun w => match w with | .done => true | _ => false) ∧ s.resultClosed = false
    then some (.ok { s with resultClosed := true }) else none
  | .collect =>
    match s.returned, s.resultCh with
    | false, res :: rest =>
      if res.err.isSome then
        some (.ok { s with resultCh := rest })
      else
        some (.ok { s with resultCh := rest,
                           output := s.output ++ res.embeddings,
                           totalProcessed := s.totalProcessed + res.embeddings.length })
    | _, _ => none
  | .finish =>
    match s.returned, s.resultCh, s.resultClosed with
    | false, [], true => some (.ok { s with returned := true })
    | _, _, _ => none

/-- Run a schedule: the moves of the list one after the other; `none` as soon
as one of them is blocked, the `Failure` of the first move that panics. -/
def exec {E : Type} (RunPipeline : Nat → List String → RunResult E) (cap : Nat) :
    Sys E → List Action → Option (Except Failure (Sys E))
  | s, [] => some (.ok s)
  | s, a :: rest =>
    match step RunPipeline cap s a with
    | none => none
    | some (.error f) => some (.error f)
    | some (.ok s1) => exec RunPipeline cap s1 rest

/-- The state in which the goroutines start, for the batches the producer is
going to send and `n` workers. -/
def initial {E : Type} (sends : List (List String)) (n : Nat) : Sys E :=
  { toSend := sends, batchClosed := false, batchCh := [],
    workers := List.replicate n .receiving,
    resultCh := [], resultClosed := false,
    output := [], totalProcessed := 0, returned := false, calls := 0 }

/-- The sequential head of the concurrent `extractFeatures`: the reslice
`records[:5000]`, the capacity `len(records)/batchSize+1` of the two channels,
and the state in which the goroutines start. A producer that panics on a row
takes the whole program down, so it is a panic of the call. -/
def start {E : Type} (records : GoSlice (List String)) : Except Failure (Nat × Sys E) :=
  resliceTo records recordLimit >>= fun records =>
  batchProducer batchSize records.elems >>= fun sends =>
  .ok (records.elems.length / batchSize + 1, initial sends numWorkers)

/-- The concurrent `extractFeatures` under a schedule of the goroutines (the
measured duration left out): `some (output, totalProcessed)` when the schedule
runs through and ends with the function returned, `none` when it is blocked
or ends earlier, and the `Failure` when a goroutine panics. -/
def extractFeatures {E : Type} (RunPipeline : Nat → List String → RunResult E)
    (records : GoSlice (List String)) (schedule : List Action) :
    Except Failure (Option (List E × Nat)) :=
  start records >>= fun (p : Nat × Sys E) =>
  match exec RunPipeline p.1 p.2 schedule with
  | some (.ok s) => if s.returned then .ok (some (s.output, s.totalProcessed)) else .ok none
  | some (.error f) => .error f
  | none => .ok none

/-! ### Vocabulary of the proofs about the concurrent `extractFeatures`

These definitions are not part of the embedding: a termination measure, the
values in flight, and two invariants of the goroutines. -/

/-- The number of moves that are left in state `s` before the function has returned. -/
def movesLeft {E : Type} (s : Sys E) : Nat :=
  4 * s.toSend.length + 3 * s.batchCh.length
    + (s.workers.map fun w => match w with
        | .receiving => 1 | .sending _ => 3 | .done => 0).sum
    + s.resultCh.length
    + (if s.batchClosed then 0 else 1) + (if s.resultClosed then 0 else 1)
    + (if s.returned then 0 else 1)

/-- The values that the workers hold and have not sent yet. -/
def held {E : Type} (workers : List (Worker E)) : List (Result E) :=
  workers.filterMap fun w => match w with
    | .sending r => some r | _ => none

/-- The invariant of the goroutines and channels that holds for every
pipeline, for `n` batches sent by the producer: every batch has been handed to
`RunPipeline` or is still on its way to a worker, the count follows the
output, and the closing order of the channels. -/
def Structural {E : Type} (n : Nat) (s : Sys E) : Prop :=
  s.calls + s.batchCh.length + s.toSend.length = n ∧
  s.totalProcessed = s.output.length ∧
  (s.batchClosed = true → s.toSend = []) ∧
  (∀ w ∈ s.workers, w = .done → s.batchClosed = true ∧ s.batchCh = []) ∧
  (s.resultClosed = true → ∀ w ∈ s.workers, w = .done) ∧
  (s.returned = true → s.resultClosed = true ∧ s.resultCh = []) ∧
  s.workers ≠ []

/-- The invariant for a pipeline that never fails and returns one embedding
per text, for `total` texts: every text is accounted for once, as an embedding
in the output, in a value on its way to the collecting loop, or as a text on
its way to a worker; and no value in flight carries an error. -/
def Counted {E : Type} (total : Nat) (s : Sys E) : Prop :=
  s.output.length + ((s.resultCh ++ held s.workers).map fun r => r.embeddings.length).sum
    + ((s.batchCh ++ s.toSend).map List.length).sum = total ∧
  ∀ r ∈ s.resultCh ++ held s.workers, r.err = none

/-! ### Concrete inputs -/

/-- A hundred records of six columns each, in a slice without spare capacity. -/
def records100 : GoSlice (List String) :=
  { elems := List.replicate 100 ["", "", "", "", "", "text"], spare := [] }

/-- Five thousand records of six columns each. -/
def records5000 : GoSlice (List String) :=
  { elems := List.replicate 5000 ["", "", "", "", "", "text"], spare := [] }

/-- A pipeline that never fails and returns each text as its own embedding. -/
def echoPipeline (_ : Nat) (batch : List String) : RunResult String :=
  { batchResult := some batch, err := none }

/-- A pipeline whose first call fails, handing back `(nil, err)`, and whose
later calls return each text as its own embedding. -/
def failFirstCall (n : Nat) (batch : List String) : RunResult String :=
  if n = 0 then { batchResult := none, err := some "execution error" }
  else { batchResult := some batch, err := none }

end ConcurrentBaselines

/-! ## `hugot_training.go`: `newTrainingSession` -/

namespace Training

/-- The dynamic type of the `datasets.Dataset` interface value, as far as the
type assertion of `newTrainingSession` tells them apart. -/
inductive DatasetType where
  | SemanticSimilarityDataset
  | otherDataset
  deriving DecidableEq, Repr

/-- The dataset object behind `config.Dataset`, with the two things the
function changes in it. `P` is the pipeline type. -/
structure Dataset (P : Type) where
  type : DatasetType
  verbose : Bool
  tokenizationPipeline : Option P
  deriving DecidableEq, Repr

/-- `TrainingConfig`, without `XlaTrainingOptions`, which the function never touches. -/
structure TrainingConfig (P : Type) where
  ModelPath : String
  OnnxFilename : String
  Cuda : Bool
  Epochs : Int
  Dataset : Dataset P
  Verbose : Bool
  deriving DecidableEq, Repr

/-- `TrainingSession`; `pipeline` is `none` for the nil interface value. -/
structure TrainingSession (P : Type) where
  runtime : String
  pipeline : Option P
  config : TrainingConfig P
  deriving DecidableEq, Repr

/-- The two fields of `options.Options` that the function sets. -/
structure Options where
  Runtime : String
  Cuda : Bool
  deriving DecidableEq, Repr

/-- The instantiation of the type parameter `T`, as far as the type switch
tells them apart. -/
inductive PipelineType where
  | FeatureExtractionPipeline
  | otherPipeline
  deriving DecidableEq, Repr

/-- The functions of other packages that `newTrainingSession` calls, for a
model type `M` and a pipeline type `P`; an `Except.error` is a non-nil error. -/
structure Externals (M P : Type) where
  Defaults : Options
  LoadModel : String → String → Options → Except String M
  InitializePipeline : Options → M → Except String P
  SetTokenizationPipeline : Dataset P → P → Except String (Dataset P)

/-- `newTrainingSession[T](runtime, config)`. The session is built first, with
a copy of `config`; the later assignment `config.Epochs = 1` is to the
parameter `config`. -/
def newTrainingSession {M P : Type} (ext : Externals M P) (T : PipelineType)
    (runtime : String) (config : TrainingConfig P) : Except Failure (TrainingSession P) :=
  let session : TrainingSession P := { config := config, runtime := runtime, pipeline := none }
  let opts : Options := { ext.Defaults with Runtime := runtime }
  if runtime = "XLA" then
    let opts : Options := { opts with Cuda := config.Cuda }
    let config : TrainingConfig P := if config.Epochs ≤ 0 then { config with Epochs := 1 } else config
    match ext.LoadModel config.ModelPath config.OnnxFilename opts with
    | .error e => .error (.err e)
    | .ok model =>
      match T with
      | .FeatureExtractionPipeline =>
        match ext.InitializePipeline opts model with
        | .error e => .error (.err e)
        | .ok pipeline =>
          let session := { session with pipeline := some pipeline }
          match session.config.Dataset.type with
          | .SemanticSimilarityDataset =>
            match ext.SetTokenizationPipeline session.config.Dataset pipeline with
            | .error e => .error (.err e)
            | .ok d =>
              let session := { session with config := { session.config with Dataset := d } }
              if session.config.Verbose then
                .ok { session with
                  config := { session.config with
                    Dataset := { session.config.Dataset with verbose := true } } }
              else
                .ok session
          | .otherDataset => .error (.err "expected SemanticSimilarityDataset")
      | .otherPipeline => .error (.err "training for pipeline type is not supported")
  else
    .error (.err ("runtime " ++ runtime ++ " is not supported"))

/-- Externals that never fail, over unit model and pipeline types. -/
def okExternals : Externals Unit Unit :=
  { Defaults := { Runtime := "", Cuda := false },
    LoadModel := fun _ _ _ => .ok (),
    InitializePipeline := fun _ _ => .ok (),
    SetTokenizationPipeline := fun d p => .ok { d with tokenizationPipeline := some p } }

/-- A training configuration with `Epochs` set to `epochs`. -/
def configWithEpochs (epochs : Int) : TrainingConfig Unit :=
  { ModelPath := "model", OnnxFilename := "model.onnx", Cuda := false, Epochs := epochs,
    Dataset := { type := .SemanticSimilarityDataset, verbose := false,
                 tokenizationPipeline := none },
    Verbose := false }

end Training

/-! ## Checked slice operations: basic facts -/

theorem setAt_append_cons {α : Type} (pre : List α) (z : α) (rest : List α) (v : α) :
    setAt (pre ++ z :: rest) pre.length v = .ok (pre ++ v :: rest) := by
  unfold setAt
  have h : pre.length < (pre ++ z :: rest).length := by simp
  rw [if_pos h]
  congr 1
  induction pre with
  | nil => rfl
  | cons a pre ih => simp [List.set, ih]

theorem setAt_eq_ok {α : Type} {xs ys : List α} {i : Nat} {v : α}
    (h : setAt xs i v = .ok ys) : i < xs.length ∧ ys = xs.set i v := by
  unfold setAt at h
  split at h
  · rename_i hlt
    exact ⟨hlt, by injection h with h; exact h.symm⟩
  · cases h

theorem setAt_of_lt {α : Type} {xs : List α} {i : Nat} (v : α) (h : i < xs.length) :
    setAt xs i v = .ok (xs.set i v) := by
  unfold setAt
  rw [if_pos h]

theorem getAt_of_lt {α : Type} {xs : List α} {i : Nat} (h : i < xs.length) :
    getAt xs i = .ok (xs.get ⟨i, h⟩) := by
  unfold getAt
  simp [List.getElem?_eq_getElem h]

theorem makeSlice_natCast {α : Type} (zero : α) (n : Nat) :
    makeSlice zero (n : Int) = .ok (List.replicate n zero) := by
  unfold makeSlice
  simp

theorem makeSliceInt_natCast {α : Type} (elemSize : Int) (zero : α) (n : Nat)
    (h : (n : Int) * elemSize ≤ maxAlloc) :
    makeSliceInt elemSize zero (n : Int) = .ok (List.replicate n zero) := by
  unfold makeSliceInt
  have h1 : ¬ ((n : Int) < 0 ∨ maxAlloc < (n : Int) * elemSize) := by omega
  rw [if_neg h1, Int.toNat_ofNat]

theorem wrapInt_of_range (x : Int) (h0 : 0 ≤ x) (h1 : x < 9223372036854775808) :
    wrapInt x = x := by
  unfold wrapInt
  omega

theorem tensorNew_natCast (a b : Nat) (backing : List Int) :
    tensorNew [(a : Int), (b : Int)] backing = .ok { shape := [a, b], backing := backing } := by
  unfold tensorNew
  have h : ([(a : Int), (b : Int)].any fun d => decide (d < 0)) = false := by
    simp
  rw [h]
  rfl

theorem bind_ok {ε α β : Type} (a : α) (f : α → Except ε β) :
    (Except.ok a >>= f) = f a := rfl

theorem bind_error {ε α β : Type} (e : ε) (f : α → Except ε β) :
    ((Except.error e : Except ε α) >>= f) = Except.error e := rfl

/-! ## `loadInputOutputMetaGo` -/

theorem fillDimensions_append (shape : List Dim) :
    ∀ (pre zs : List Int), zs.length = shape.length →
      fillDimensions shape pre.length (pre ++ zs) =
        .ok (pre ++ shape.map fun y => if y.IsDynamic then -1 else y.Size) := by
  induction shape with
  | nil =>
    intro pre zs h
    have : zs = [] := List.length_eq_zero.mp h
    simp [fillDimensions, this]
  | cons y rest ih =>
    intro pre zs h
    match zs, h with
    | z :: zs1, h =>
      have hlen : zs1.length = rest.length := by simpa using h
      have key := ih (pre ++ [if y.IsDynamic then -1 else y.Size]) zs1 hlen
      simp only [List.length_append, List.length_singleton, List.append_assoc,
        List.singleton_append] at key
      unfold fillDimensions
      rw [List.map_cons]
      by_cases hd : y.IsDynamic = true
      · rw [if_pos hd] at key ⊢
        rw [if_pos hd, setAt_append_cons, bind_ok]
        exact key
      · rw [if_neg hd] at key ⊢
        rw [if_neg hd, setAt_append_cons, bind_ok]
        exact key

theorem loadOneMeta_eq (shapes : String → List Dim) (acc : List InputOutputInfo)
    (name : String) :
    loadOneMeta shapes acc name =
      .ok (acc ++ [{ Name := name,
                     Dimensions := (shapes name).map fun y =>
                       if y.IsDynamic then -1 else y.Size }]) := by
  unfold loadOneMeta
  have h := fillDimensions_append (shapes name) [] (List.replicate (shapes name).length 0)
    (by simp)
  simp only [List.length_nil, List.nil_append] at h
  simp only [makeSlice_natCast, bind_ok, h]

theorem loadMetaLoop_eq (shapes : String → List Dim) (names : List String) :
    ∀ acc : List InputOutputInfo,
      loadMetaLoop shapes names acc =
        .ok (acc ++ names.map fun name =>
          { Name := name,
            Dimensions := (shapes name).map fun y => if y.IsDynamic then -1 else y.Size }) := by
  induction names with
  | nil => intro acc; simp [loadMetaLoop]
  | cons name rest ih =>
    intro acc
    simp only [loadMetaLoop, loadOneMeta_eq, bind_ok, ih, List.map_cons, List.append_assoc,
      List.singleton_append]

/-- C8: for every parsed model, `loadInputOutputMetaGo` returns, for the inputs
and for the outputs, one `InputOutputInfo` per declared name, in declaration
order and with that name, whose `Dimensions` lists the declared shape entry by
entry: `-1` for a dynamic dimension, the declared `Size` otherwise. -/
theorem loadInputOutputMetaGo_spec (model : GonnxModel) :
    loadInputOutputMetaGo model =
      .ok (model.InputNames.map (fun name =>
              { Name := name,
                Dimensions := (model.InputShapes name).map fun y =>
                  if y.IsDynamic then -1 else y.Size }),
           model.OutputNames.map (fun name =>
              { Name := name,
                Dimensions := (model.OutputShapes name).map fun y =>
                  if y.IsDynamic then -1 else y.Size })) := by
  unfold loadInputOutputMetaGo
  simp only [loadMetaLoop_eq, bind_ok, List.nil_append]

/-! ## `createInputTensorsGo`: the loop over positions -/

theorem bind_eq_ok {ε α β : Type} {x : Except ε α} {f : α → Except ε β} {b : β}
    (h : (x >>= f) = .ok b) : ∃ a, x = .ok a ∧ f a = .ok b := by
  cases x with
  | error e => cases h
  | ok a => exact ⟨a, rfl, h⟩

theorem fieldOf_input_ids (input : TokenizedInput) :
    fieldOf "input_ids" input = input.TokenIDs := by simp [fieldOf]

theorem fieldOf_token_type_ids (input : TokenizedInput) :
    fieldOf "token_type_ids" input = input.TypeIDs := by simp [fieldOf]

theorem fieldOf_attention_mask (input : TokenizedInput) :
    fieldOf "attention_mask" input = input.AttentionMask := by simp [fieldOf]

theorem fillPosition_recognized (name : String) (input : TokenizedInput) (k : Nat)
    (pre : List Int) (z : Int) (rest : List Int) (mask : List Bool)
    (hname : Recognized name)
    (hfield : (fieldOf name input).length = input.TokenIDs.length)
    (hmask : k < mask.length) :
    fillPosition name input k
        { backingSlice := pre ++ z :: rest, counter := pre.length, inputPaddingMask := mask } =
      .ok { backingSlice := pre ++ cellOf name input k :: rest,
            counter := pre.length + 1,
            inputPaddingMask :=
              if name = "input_ids" ∧ k < input.TokenIDs.length then mask.set k true
              else mask } := by
  unfold fillPosition cellOf
  by_cases hk : k < input.TokenIDs.length
  · have hk1 : k + 1 ≤ input.TokenIDs.length := hk
    rcases hname with h | h | h <;> subst h
    · simp [hk, hk1, fieldOf_input_ids, getAt_of_lt hk, setAt_append_cons,
        setAt_of_lt _ hmask, bind_ok]
    · rw [fieldOf_token_type_ids] at hfield ⊢
      have hkf : k < input.TypeIDs.length := by omega
      simp [hk, hk1, hkf, getAt_of_lt hkf, setAt_append_cons, bind_ok]
    · rw [fieldOf_attention_mask] at hfield ⊢
      have hkf : k < input.AttentionMask.length := by omega
      simp [hk, hk1, hkf, getAt_of_lt hkf, setAt_append_cons, bind_ok]
  · have hk1 : ¬ k + 1 ≤ input.TokenIDs.length := by omega
    simp [hk, hk1, setAt_append_cons, bind_ok]

theorem fillPositions_recognized (name : String) (input : TokenizedInput)
    (hname : Recognized name)
    (hfield : (fieldOf name input).length = input.TokenIDs.length) (n : Nat) :
    ∀ (k : Nat) (pre zs post : List Int) (mask : List Bool),
      zs.length = n → k + n ≤ mask.length →
      ∃ mask1 : List Bool, mask1.length = mask.length ∧
        fillPositions name input n k
            { backingSlice := pre ++ zs ++ post, counter := pre.length,
              inputPaddingMask := mask } =
          .ok { backingSlice := pre ++ (List.range' k n).map (cellOf name input) ++ post,
                counter := pre.length + n,
                inputPaddingMask := mask1 } := by
  induction n with
  | zero =>
    intro k pre zs post mask hz _
    have : zs = [] := List.length_eq_zero.mp hz
    exact ⟨mask, rfl, by simp [fillPositions, this]⟩
  | succ n ih =>
    intro k pre zs post mask hz hm
    match zs, hz with
    | z :: zs1, hz =>
      have hz1 : zs1.length = n := by simpa using hz
      have hstep := fillPosition_recognized name input k pre z (zs1 ++ post) mask hname hfield
        (by omega)
      have hlenIf : (if name = "input_ids" ∧ k < input.TokenIDs.length then mask.set k true
          else mask).length = mask.length := by
        split
        · simp
        · rfl
      obtain ⟨mask1, hlen1, hrest⟩ := ih (k + 1) (pre ++ [cellOf name input k]) zs1 post
        (if name = "input_ids" ∧ k < input.TokenIDs.length then mask.set k true else mask)
        hz1 (by rw [hlenIf]; omega)
      refine ⟨mask1, by rw [hlen1, hlenIf], ?_⟩
      unfold fillPositions
      simp only [List.append_assoc, List.cons_append] at hstep ⊢
      rw [hstep, bind_ok]
      have e : pre.length + 1 + n = pre.length + (n + 1) := by omega
      simp only [List.append_assoc, List.singleton_append, List.length_append,
        List.length_singleton, List.cons_append, e] at hrest
      rw [List.range'_succ, List.map_cons, List.cons_append]
      exact hrest

/-! ## `createInputTensorsGo`: recognized names fill the whole buffer -/

theorem fillRecord_recognized (name : String) (n : Nat) (j : Nat) (input : TokenizedInput)
    (hname : Recognized name)
    (hfield : (fieldOf name input).length = input.TokenIDs.length)
    (pre zs post : List Int) (pm : List (List Bool))
    (hz : zs.length = n) (hj : j < pm.length) (hn : (n : Int) ≤ maxAlloc) :
    ∃ pm1 : List (List Bool), pm1.length = pm.length ∧
      fillRecord name (n : Int) j input
          { backingSlice := pre ++ zs ++ post, counter := pre.length, paddingMasks := pm } =
        .ok { backingSlice := pre ++ rowCells name n input ++ post,
              counter := pre.length + n, paddingMasks := pm1 } := by
  obtain ⟨mask1, _, hfill⟩ := fillPositions_recognized name input hname hfield n 0 pre zs post
    (List.replicate n false) hz (by simp)
  unfold fillRecord
  simp only [makeSliceInt_natCast 1 false n (by omega), bind_ok, Int.toNat_ofNat, hfill,
    rowCells]
  by_cases hid : name = "input_ids"
  · exact ⟨pm.set j mask1, by simp, by simp [hid, setAt_of_lt _ hj, bind_ok]⟩
  · exact ⟨pm, rfl, by simp [hid, bind_ok]⟩

theorem fillRecords_recognized (name : String) (n : Nat) (hname : Recognized name)
    (rs : List TokenizedInput) :
    (∀ r ∈ rs, (fieldOf name r).length = r.TokenIDs.length) →
    (rs ≠ [] → (n : Int) ≤ maxAlloc) →
    ∀ (j : Nat) (pre zs : List Int) (pm : List (List Bool)),
      zs.length = rs.length * n → j + rs.length ≤ pm.length →
      ∃ pm1 : List (List Bool), pm1.length = pm.length ∧
        fillRecords name (n : Int) rs j
            { backingSlice := pre ++ zs, counter := pre.length, paddingMasks := pm } =
          .ok { backingSlice := pre ++ rs.flatMap (rowCells name n),
                counter := pre.length + rs.length * n, paddingMasks := pm1 } := by
  induction rs with
  | nil =>
    intro _ _ j pre zs pm hz _
    have : zs = [] := List.length_eq_zero.mp (by simpa using hz)
    exact ⟨pm, rfl, by simp [fillRecords, this]⟩
  | cons r rest ih =>
    intro hf hn j pre zs pm hz hj
    have hn1 : (n : Int) ≤ maxAlloc := hn (List.cons_ne_nil _ _)
    have hzlen : zs.length = n + rest.length * n := by
      rw [hz, List.length_cons, Nat.succ_mul]; omega
    have htake : (zs.take n).length = n := by simp [hzlen]
    have hdrop : (zs.drop n).length = rest.length * n := by simp [hzlen]
    obtain ⟨pm1, hpm1, hrec⟩ := fillRecord_recognized name n j r hname
      (hf r (List.mem_cons_self _ _)) pre (zs.take n) (zs.drop n) pm htake
      (by simp only [List.length_cons] at hj; omega) hn1
    obtain ⟨pm2, hpm2, hrest⟩ := ih (fun x hx => hf x (List.mem_cons_of_mem _ hx))
      (fun _ => hn1) (j + 1)
      (pre ++ rowCells name n r) (zs.drop n) pm1 hdrop
      (by simp only [List.length_cons] at hj; omega)
    refine ⟨pm2, by rw [hpm2, hpm1], ?_⟩
    unfold fillRecords
    have hsplit : pre ++ zs = pre ++ zs.take n ++ zs.drop n := by
      rw [List.append_assoc, List.take_append_drop]
    have hrow : (rowCells name n r).length = n := by simp [rowCells]
    rw [hsplit, hrec, bind_ok]
    simp only [List.length_append, hrow] at hrest
    rw [hrest]
    simp only [List.flatMap_cons, List.append_assoc, List.length_cons, Nat.succ_mul]
    congr 2
    omega

theorem mapGet_mapSet_same (mp : TensorMap) (key : String) (v : Tensor) :
    mapGet (mapSet mp key v) key = some v := by
  induction mp with
  | nil => simp [mapSet, mapGet]
  | cons p rest ih =>
    obtain ⟨k, w⟩ := p
    by_cases h : k = key
    · simp [mapSet, mapGet, h]
    · simp [mapSet, mapGet, h, ih]

theorem mapGet_mapSet_other (mp : TensorMap) (key other : String) (v : Tensor)
    (h : other ≠ key) : mapGet (mapSet mp key v) other = mapGet mp other := by
  induction mp with
  | nil => simp [mapSet, mapGet, Ne.symm h]
  | cons p rest ih =>
    obtain ⟨k, w⟩ := p
    by_cases hk : k = key
    · subst hk
      simp [mapSet, mapGet, Ne.symm h]
    · by_cases ho : k = other
      · subst ho
        simp [mapSet, mapGet, hk]
      · simp [mapSet, mapGet, hk, ho, ih]

/-- The tensor that `createInputTensorsGo` stores for a recognized name. -/
theorem fillTensor_recognized (batch : PipelineBatch) (n : Nat)
    (hmax : batch.MaxSequenceLength = (n : Int)) (inputMeta : InputOutputInfo)
    (hname : Recognized inputMeta.Name)
    (hfield : ∀ r ∈ batch.Input, (fieldOf inputMeta.Name r).length = r.TokenIDs.length)
    (pm : List (List Bool)) (mp : TensorMap) (hpm : pm.length = batch.Input.length)
    (hbytes : 8 * ((batch.Input.length : Int) * batch.MaxSequenceLength) ≤ maxAlloc) :
    ∃ pm1 : List (List Bool), pm1.length = batch.Input.length ∧
      fillTensor batch inputMeta (pm, mp) =
        .ok (pm1, mapSet mp inputMeta.Name
          { shape := [(batch.Input.length : Int), batch.MaxSequenceLength],
            backing := batch.Input.flatMap (rowCells inputMeta.Name n) }) := by
  have hsize : (batch.Input.length : Int) * batch.MaxSequenceLength
      = ((batch.Input.length * n : Nat) : Int) := by rw [hmax]; push_cast; rfl
  rw [hsize] at hbytes
  have hmask : batch.Input ≠ [] → (n : Int) ≤ maxAlloc := by
    intro hne
    have hpos : 0 < batch.Input.length := List.length_pos.mpr hne
    have hle : n ≤ batch.Input.length * n := Nat.le_mul_of_pos_left n hpos
    have : (n : Int) ≤ ((batch.Input.length * n : Nat) : Int) := by exact_mod_cast hle
    omega
  obtain ⟨pm1, hpm1, hrec⟩ := fillRecords_recognized inputMeta.Name n hname batch.Input hfield
    hmask 0 [] (List.replicate (batch.Input.length * n) 0) pm (by simp) (by omega)
  refine ⟨pm1, by rw [hpm1, hpm], ?_⟩
  unfold fillTensor
  have hwrap : wrapInt ((batch.Input.length * n : Nat) : Int)
      = ((batch.Input.length * n : Nat) : Int) :=
    wrapInt_of_range _ (by omega) (by unfold maxAlloc at hbytes; omega)
  simp only [hsize, hwrap, makeSliceInt_natCast 8 (0 : Int) (batch.Input.length * n)
    (by omega), bind_ok]
  rw [hmax]
  simp only [List.nil_append, List.length_nil] at hrec
  rw [hrec, bind_ok, tensorNew_natCast, bind_ok]

theorem fillTensors_recognized (batch : PipelineBatch) (n : Nat)
    (hmax : batch.MaxSequenceLength = (n : Int))
    (hfield : ∀ r ∈ batch.Input,
      r.TypeIDs.length = r.TokenIDs.length ∧ r.AttentionMask.length = r.TokenIDs.length)
    (hbytes : 8 * ((batch.Input.length : Int) * batch.MaxSequenceLength) ≤ maxAlloc)
    (metas : List InputOutputInfo) :
    (∀ m ∈ metas, Recognized m.Name) →
    ∀ (pm : List (List Bool)) (mp : TensorMap), pm.length = batch.Input.length →
      (∀ name t, mapGet mp name = some t →
        t.backing = batch.Input.flatMap (rowCells name n)) →
      ∃ (pm1 : List (List Bool)) (mp1 : TensorMap),
        fillTensors batch metas (pm, mp) = .ok (pm1, mp1) ∧
        pm1.length = batch.Input.length ∧
        (∀ name t, mapGet mp1 name = some t →
          t.backing = batch.Input.flatMap (rowCells name n)) ∧
        (∀ name, (mapGet mp name).isSome → (mapGet mp1 name).isSome) ∧
        (∀ m ∈ metas, (mapGet mp1 m.Name).isSome) := by
  induction metas with
  | nil =>
    intro _ pm mp hpm hmp
    exact ⟨pm, mp, rfl, hpm, hmp, fun _ h => h, by simp⟩
  | cons meta rest ih =>
    intro hnames pm mp hpm hmp
    have hname := hnames meta (List.mem_cons_self _ _)
    have hf : ∀ r ∈ batch.Input, (fieldOf meta.Name r).length = r.TokenIDs.length := by
      intro r hr
      rcases hname with h | h | h <;> rw [h]
      · rw [fieldOf_input_ids]
      · rw [fieldOf_token_type_ids]; exact (hfield r hr).1
      · rw [fieldOf_attention_mask]; exact (hfield r hr).2
    obtain ⟨pm1, hpm1, hten⟩ :=
      fillTensor_recognized batch n hmax meta hname hf pm mp hpm hbytes
    have hmp1 : ∀ name t, mapGet (mapSet mp meta.Name
        { shape := [(batch.Input.length : Int), batch.MaxSequenceLength],
          backing := batch.Input.flatMap (rowCells meta.Name n) }) name = some t →
        t.backing = batch.Input.flatMap (rowCells name n) := by
      intro name t ht
      by_cases hn : name = meta.Name
      · subst hn
        rw [mapGet_mapSet_same] at ht
        injection ht with ht
        rw [← ht]
      · rw [mapGet_mapSet_other _ _ _ _ hn] at ht
        exact hmp name t ht
    obtain ⟨pm2, mp2, hrest, hpm2, hmp2, hkeep, hall⟩ :=
      ih (fun m hm => hnames m (List.mem_cons_of_mem _ hm)) pm1 _ hpm1 hmp1
    refine ⟨pm2, mp2, ?_, hpm2, hmp2, ?_, ?_⟩
    · unfold fillTensors
      rw [hten, bind_ok, hrest]
    · intro name h
      apply hkeep
      by_cases hn : name = meta.Name
      · subst hn; rw [mapGet_mapSet_same]; rfl
      · rw [mapGet_mapSet_other _ _ _ _ hn]; exact h
    · intro m hm
      rcases List.mem_cons.mp hm with h | h
      · subst h
        apply hkeep
        rw [mapGet_mapSet_same]; rfl
      · exact hall m h

theorem length_flatMap_rowCells (name : String) (n : Nat) (rs : List TokenizedInput) :
    (rs.flatMap (rowCells name n)).length = rs.length * n := by
  induction rs with
  | nil => simp
  | cons r rest ih =>
    simp only [List.flatMap_cons, List.length_append, ih, List.length_cons, Nat.succ_mul]
    simp [rowCells]
    omega

theorem getElem?_flatMap_rowCells (name : String) (n : Nat) (rs : List TokenizedInput) :
    ∀ (j k : Nat) (hj : j < rs.length), k < n →
      (rs.flatMap (rowCells name n))[j * n + k]? = some (cellOf name (rs.get ⟨j, hj⟩) k) := by
  induction rs with
  | nil => intro j k hj; simp at hj
  | cons r rest ih =>
    intro j k hj hk
    have hrow : (rowCells name n r).length = n := by simp [rowCells]
    cases j with
    | zero =>
      simp only [List.flatMap_cons, Nat.zero_mul, Nat.zero_add]
      rw [List.getElem?_append_left (by rw [hrow]; exact hk)]
      simp [rowCells, hk]
    | succ j =>
      have hj1 : j < rest.length := by simpa using hj
      simp only [List.flatMap_cons]
      rw [List.getElem?_append_right (by rw [hrow, Nat.succ_mul]; omega)]
      have e : (j + 1) * n + k - (rowCells name n r).length = j * n + k := by
        rw [hrow, Nat.succ_mul]; omega
      rw [e, ih j k hj1 hk]
      rfl

/-- C2, as the code has it: for every batch whose records have `TokenIDs`,
`TypeIDs` and `AttentionMask` of equal length, whose `MaxSequenceLength` is
not negative and whose `len(batch.Input) * MaxSequenceLength` cells of 8 bytes
are within what `make` allocates, and every list of declared inputs with
recognized names only, `createInputTensorsGo` succeeds and stores for every
declared name a tensor whose backing slice has length
`len(batch.Input) * MaxSequenceLength` and holds at index
`j * MaxSequenceLength + k` the `k`-th value of the field of record `j` that
belongs to the name when `k` is below the record's token length, and `0`
otherwise. -/
theorem createInputTensorsGo_buffers (batch : PipelineBatch)
    (inputsMeta : List InputOutputInfo)
    (hfields : ∀ r ∈ batch.Input,
      r.TypeIDs.length = r.TokenIDs.length ∧ r.AttentionMask.length = r.TokenIDs.length)
    (hmax : 0 ≤ batch.MaxSequenceLength)
    (hbytes : 8 * ((batch.Input.length : Int) * batch.MaxSequenceLength) ≤ maxAlloc)
    (hnames : ∀ m ∈ inputsMeta,
      m.Name = "input_ids" ∨ m.Name = "token_type_ids" ∨ m.Name = "attention_mask") :
    ∃ out : PipelineBatch, createInputTensorsGo batch inputsMeta = .ok out ∧
      ∀ m ∈ inputsMeta, ∃ t : Tensor, mapGet out.InputValues m.Name = some t ∧
        (t.backing.length : Int) = (batch.Input.length : Int) * batch.MaxSequenceLength ∧
        ∀ (j k : Nat) (hj : j < batch.Input.length), (k : Int) < batch.MaxSequenceLength →
          t.backing[j * batch.MaxSequenceLength.toNat + k]? =
            some (if k < (batch.Input.get ⟨j, hj⟩).TokenIDs.length then
                    (if m.Name = "input_ids" then
                      (((batch.Input.get ⟨j, hj⟩).TokenIDs.getD k 0 : Nat) : Int)
                     else if m.Name = "token_type_ids" then
                      (((batch.Input.get ⟨j, hj⟩).TypeIDs.getD k 0 : Nat) : Int)
                     else
                      (((batch.Input.get ⟨j, hj⟩).AttentionMask.getD k 0 : Nat) : Int))
                  else 0) := by
  obtain ⟨n, hn⟩ := Int.eq_ofNat_of_zero_le hmax
  obtain ⟨pm1, mp1, hrun, _, hmp1, _, hall⟩ :=
    fillTensors_recognized batch n hn hfields hbytes inputsMeta hnames
      (List.replicate batch.Input.length []) [] (by simp) (by simp [mapGet])
  refine ⟨{ batch with InputValues := mp1, PaddingMask := pm1 }, ?_, ?_⟩
  · unfold createInputTensorsGo
    simp only [makeSlice_natCast, bind_ok, hrun]
  · intro m hm
    have hsome := hall m hm
    obtain ⟨t, ht⟩ := Option.isSome_iff_exists.mp hsome
    have hback := hmp1 m.Name t ht
    refine ⟨t, ht, ?_, ?_⟩
    · rw [hback, length_flatMap_rowCells, hn]
      push_cast
      rfl
    · intro j k hj hk
      rw [hn] at hk ⊢
      have hk1 : k < n := by exact_mod_cast hk
      rw [hback, Int.toNat_ofNat, getElem?_flatMap_rowCells m.Name n batch.Input j k hj hk1]
      unfold cellOf fieldOf
      congr 1
      split
      · split
        · rfl
        · split <;> rfl
      · rfl

/-- Witness for the amended C2 on the batch with token lengths `[3, 5, 2]` and
`MaxSequenceLength` 5: each of the three buffers has length 15. -/
theorem createInputTensorsGo_buffers_witness :
    (∀ r ∈ batch352.Input,
      r.TypeIDs.length = r.TokenIDs.length ∧ r.AttentionMask.length = r.TokenIDs.length) ∧
    0 ≤ batch352.MaxSequenceLength ∧
    8 * ((batch352.Input.length : Int) * batch352.MaxSequenceLength) ≤ maxAlloc ∧
    (∀ m ∈ inputsMeta3,
      m.Name = "input_ids" ∨ m.Name = "token_type_ids" ∨ m.Name = "attention_mask") ∧
    ∃ out : PipelineBatch, createInputTensorsGo batch352 inputsMeta3 = .ok out ∧
      ∀ m ∈ inputsMeta3, ∃ t : Tensor, mapGet out.InputValues m.Name = some t ∧
        (t.backing.length : Int) = 15 :=
  ⟨by decide, by decide, by decide, by decide,
    (createInputTensorsGo_buffers batch352 inputsMeta3 (by decide) (by decide) (by decide)
      (by decide)).imp
      fun _ h => ⟨h.1, fun m hm => (h.2 m hm).imp fun _ ht => ⟨ht.1, ht.2.1⟩⟩⟩

/-- C2 as stated fails: on the batch with token lengths `[3, 5, 2]`, fields of
equal length and the three recognized names declared, with `MaxSequenceLength`
`2^62` the product `3 * 2^62` wraps to `-2^62` in Go's `int` and
`make([]int64, tensorSize)` panics; with `MaxSequenceLength` `-1` it panics on
the negative length. The call does not succeed. -/
theorem createInputTensorsGo_buffers_make_panics :
    (∀ r ∈ batch352Huge.Input,
      r.TypeIDs.length = r.TokenIDs.length ∧ r.AttentionMask.length = r.TokenIDs.length) ∧
    createInputTensorsGo batch352Huge inputsMeta3 = .error (.panic .makeLenOutOfRange) ∧
    createInputTensorsGo { batch352 with MaxSequenceLength := -1 } inputsMeta3
      = .error (.panic .makeLenOutOfRange) :=
  ⟨by decide, rfl, rfl⟩

/-! ## `createInputTensorsGo`: what a nil error return tells -/

theorem fillPosition_ok {name : String} {input : TokenizedInput} {k : Nat} {s s1 : FillState}
    (h : fillPosition name input k s = .ok s1) :
    s1.counter = s.counter + 1 ∧ s1.backingSlice.length = s.backingSlice.length ∧
      s1.inputPaddingMask =
        (if name = "input_ids" ∧ k < input.TokenIDs.length then s.inputPaddingMask.set k true
         else s.inputPaddingMask) := by
  unfold fillPosition at h
  obtain ⟨s2, h2, h3⟩ := bind_eq_ok h
  injection h3 with h3
  subst h3
  by_cases hk : k + 1 ≤ input.TokenIDs.length
  · have hk0 : k < input.TokenIDs.length := hk
    rw [if_pos hk] at h2
    by_cases h1 : name = "input_ids"
    · rw [if_pos h1] at h2
      obtain ⟨v, _, h2⟩ := bind_eq_ok h2
      obtain ⟨bs, hbs, h2⟩ := bind_eq_ok h2
      obtain ⟨pm, hpm, h2⟩ := bind_eq_ok h2
      injection h2 with h2
      subst h2
      obtain ⟨_, rfl⟩ := setAt_eq_ok hbs
      obtain ⟨_, rfl⟩ := setAt_eq_ok hpm
      simp [h1, hk0]
    · rw [if_neg h1] at h2
      by_cases h4 : name = "token_type_ids"
      · rw [if_pos h4] at h2
        obtain ⟨v, _, h2⟩ := bind_eq_ok h2
        obtain ⟨bs, hbs, h2⟩ := bind_eq_ok h2
        injection h2 with h2
        subst h2
        obtain ⟨_, rfl⟩ := setAt_eq_ok hbs
        simp [h1]
      · rw [if_neg h4] at h2
        by_cases h5 : name = "attention_mask"
        · rw [if_pos h5] at h2
          obtain ⟨v, _, h2⟩ := bind_eq_ok h2
          obtain ⟨bs, hbs, h2⟩ := bind_eq_ok h2
          injection h2 with h2
          subst h2
          obtain ⟨_, rfl⟩ := setAt_eq_ok hbs
          simp [h1]
        · rw [if_neg h5] at h2
          cases h2
  · have hk0 : ¬ k < input.TokenIDs.length := by omega
    rw [if_neg hk] at h2
    obtain ⟨bs, hbs, h2⟩ := bind_eq_ok h2
    injection h2 with h2
    subst h2
    obtain ⟨_, rfl⟩ := setAt_eq_ok hbs
    simp [hk0]

theorem fillPositions_ok {name : String} {input : TokenizedInput} (n : Nat) :
    ∀ {k : Nat} {s s1 : FillState}, fillPositions name input n k s = .ok s1 →
      s1.counter = s.counter + n ∧ s1.backingSlice.length = s.backingSlice.length ∧
      s1.inputPaddingMask.length = s.inputPaddingMask.length ∧
      (name ≠ "input_ids" → s1.inputPaddingMask = s.inputPaddingMask) := by
  induction n with
  | zero =>
    intro k s s1 h
    injection h with h
    subst h
    simp
  | succ n ih =>
    intro k s s1 h
    unfold fillPositions at h
    obtain ⟨s2, h2, h3⟩ := bind_eq_ok h
    obtain ⟨hc, hb, hm⟩ := fillPosition_ok h2
    obtain ⟨hc1, hb1, hl1, hm1⟩ := ih h3
    refine ⟨by omega, by omega, ?_, ?_⟩
    · rw [hl1, hm]
      split <;> simp
    · intro hne
      rw [hm1 hne, hm]
      simp [hne]

theorem fillPositions_mask (input : TokenizedInput) (n : Nat) :
    ∀ (pre : List Bool) (bs : List Int) (c : Nat) (s1 : FillState),
      fillPositions "input_ids" input n pre.length
          { backingSlice := bs, counter := c,
            inputPaddingMask := pre ++ List.replicate n false } = .ok s1 →
      s1.inputPaddingMask =
        pre ++ (List.range' pre.length n).map fun k => decide (k < input.TokenIDs.length) := by
  induction n with
  | zero =>
    intro pre bs c s1 h
    injection h with h
    subst h
    simp
  | succ n ih =>
    intro pre bs c s1 h
    unfold fillPositions at h
    obtain ⟨s2, h2, h3⟩ := bind_eq_ok h
    obtain ⟨_, _, hm⟩ := fillPosition_ok h2
    have hs2 : s2.inputPaddingMask =
        (pre ++ [decide (pre.length < input.TokenIDs.length)]) ++ List.replicate n false := by
      rw [hm]
      by_cases hk : pre.length < input.TokenIDs.length
      · have hset := setAt_append_cons pre false (List.replicate n false) true
        obtain ⟨_, hset⟩ := setAt_eq_ok hset
        simp only [List.replicate_succ]
        simp [hk, ← hset]
      · simp [hk, List.replicate_succ]
    have h4 := ih (pre ++ [decide (pre.length < input.TokenIDs.length)]) s2.backingSlice
      s2.counter s1
    rw [← hs2] at h4
    simp only [List.length_append, List.length_singleton] at h4
    rw [h4 h3, List.range'_succ, List.map_cons, List.append_assoc, List.singleton_append]

theorem makeSlice_eq_ok {α : Type} {zero : α} {n : Int} {xs : List α}
    (h : makeSlice zero n = .ok xs) : 0 ≤ n ∧ xs = List.replicate n.toNat zero := by
  unfold makeSlice at h
  split at h
  · cases h
  · rename_i hn
    injection h with h
    exact ⟨by omega, h.symm⟩

theorem makeSliceInt_eq_ok {α : Type} {elemSize : Int} {zero : α} {n : Int} {xs : List α}
    (h : makeSliceInt elemSize zero n = .ok xs) :
    0 ≤ n ∧ n * elemSize ≤ maxAlloc ∧ xs = List.replicate n.toNat zero := by
  unfold makeSliceInt at h
  split at h
  · cases h
  · rename_i hn
    injection h with h
    exact ⟨by omega, by omega, h.symm⟩

theorem fillRecord_ok {name : String} {m : Int} {j : Nat} {input : TokenizedInput}
    {s s1 : RecordState} (h : fillRecord name m j input s = .ok s1) :
    0 ≤ m ∧ s1.counter = s.counter + m.toNat ∧
      s1.backingSlice.length = s.backingSlice.length ∧
      s1.paddingMasks.length = s.paddingMasks.length ∧
      (name ≠ "input_ids" → s1.paddingMasks = s.paddingMasks) ∧
      (name = "input_ids" →
        setAt s.paddingMasks j (paddingRow m.toNat input.TokenIDs.length) =
          .ok s1.paddingMasks) := by
  unfold fillRecord at h
  obtain ⟨mask, hmask, h⟩ := bind_eq_ok h
  obtain ⟨fs, hfs, h⟩ := bind_eq_ok h
  obtain ⟨pms, hpms, h⟩ := bind_eq_ok h
  injection h with h
  subst h
  obtain ⟨hm, _, rfl⟩ := makeSliceInt_eq_ok hmask
  obtain ⟨hc, hb, _, _⟩ := fillPositions_ok _ hfs
  refine ⟨hm, hc, hb, ?_, ?_, ?_⟩
  · by_cases hn : name = "input_ids"
    · rw [if_pos hn] at hpms
      obtain ⟨_, rfl⟩ := setAt_eq_ok hpms
      simp
    · rw [if_neg hn] at hpms
      injection hpms with hpms
      rw [← hpms]
  · intro hn
    rw [if_neg hn] at hpms
    injection hpms with hpms
    exact hpms.symm
  · intro hn
    subst hn
    rw [if_pos rfl] at hpms
    have hrow := fillPositions_mask input m.toNat [] s.backingSlice s.counter fs
      (by simpa using hfs)
    simp only [List.length_nil, List.nil_append] at hrow
    rw [paddingRow, ← hrow]
    exact hpms

theorem fillRecords_ok {name : String} {m : Int} (rs : List TokenizedInput) :
    ∀ {j : Nat} {s s1 : RecordState}, fillRecords name m rs j s = .ok s1 →
      (rs ≠ [] → 0 ≤ m) ∧ s1.counter = s.counter + rs.length * m.toNat ∧
      s1.backingSlice.length = s.backingSlice.length ∧
      s1.paddingMasks.length = s.paddingMasks.length ∧
      (name ≠ "input_ids" → s1.paddingMasks = s.paddingMasks) := by
  induction rs with
  | nil =>
    intro j s s1 h
    injection h with h
    subst h
    simp
  | cons r rest ih =>
    intro j s s1 h
    unfold fillRecords at h
    obtain ⟨s2, h2, h3⟩ := bind_eq_ok h
    obtain ⟨hm, hc, hb, hl, hne, _⟩ := fillRecord_ok h2
    obtain ⟨_, hc1, hb1, hl1, hne1⟩ := ih h3
    refine ⟨fun _ => hm, ?_, by omega, by omega, fun hn => by rw [hne1 hn, hne hn]⟩
    rw [hc1, hc, List.length_cons, Nat.succ_mul]
    omega

theorem fillRecords_mask {m : Int} (rs : List TokenizedInput) :
    ∀ (done todo : List (List Bool)) (bs : List Int) (c : Nat) (s1 : RecordState),
      todo.length = rs.length →
      fillRecords "input_ids" m rs done.length
          { backingSlice := bs, counter := c, paddingMasks := done ++ todo } = .ok s1 →
      s1.paddingMasks = done ++ rs.map fun r => paddingRow m.toNat r.TokenIDs.length := by
  induction rs with
  | nil =>
    intro done todo bs c s1 hlen h
    have : todo = [] := List.length_eq_zero.mp (by simpa using hlen)
    injection h with h
    subst h
    simp [this]
  | cons r rest ih =>
    intro done todo bs c s1 hlen h
    match todo, hlen with
    | t :: todo1, hlen =>
      unfold fillRecords at h
      obtain ⟨s2, h2, h3⟩ := bind_eq_ok h
      obtain ⟨_, _, _, _, _, hset⟩ := fillRecord_ok h2
      have hset1 := hset rfl
      simp only [] at hset1
      rw [setAt_append_cons] at hset1
      injection hset1 with hset1
      have h4 := ih (done ++ [paddingRow m.toNat r.TokenIDs.length]) todo1 s2.backingSlice
        s2.counter s1 (by simpa using hlen)
      simp only [List.append_assoc, List.singleton_append, List.length_append,
        List.length_singleton] at h4
      rw [hset1] at h4
      rw [h4 h3, List.map_cons]

theorem fillTensor_ok {batch : PipelineBatch} {inputMeta : InputOutputInfo}
    {pm pm1 : List (List Bool)} {mp mp1 : TensorMap}
    (hpm : pm.length = batch.Input.length)
    (h : fillTensor batch inputMeta (pm, mp) = .ok (pm1, mp1)) :
    (batch.Input ≠ [] → 0 ≤ batch.MaxSequenceLength) ∧
      pm1.length = batch.Input.length ∧
      (inputMeta.Name ≠ "input_ids" → pm1 = pm) ∧
      (inputMeta.Name = "input_ids" →
        pm1 = batch.Input.map fun r =>
          paddingRow batch.MaxSequenceLength.toNat r.TokenIDs.length) := by
  unfold fillTensor at h
  obtain ⟨bs, _, h⟩ := bind_eq_ok h
  obtain ⟨rs, hrs, h⟩ := bind_eq_ok h
  obtain ⟨t, _, h⟩ := bind_eq_ok h
  injection h with h
  injection h with h1 h2
  subst h1
  obtain ⟨hm, _, _, hl, hne⟩ := fillRecords_ok _ hrs
  refine ⟨hm, by rw [hl]; exact hpm, hne, ?_⟩
  intro hn
  rw [hn] at hrs
  have := fillRecords_mask batch.Input [] pm bs 0 rs hpm (by simpa using hrs)
  simpa using this

theorem fillTensors_ok {batch : PipelineBatch} (metas : List InputOutputInfo) :
    ∀ {pm pm1 : List (List Bool)} {mp mp1 : TensorMap},
      pm.length = batch.Input.length →
      fillTensors batch metas (pm, mp) = .ok (pm1, mp1) →
      (batch.Input ≠ [] → metas ≠ [] → 0 ≤ batch.MaxSequenceLength) ∧
      pm1.length = batch.Input.length ∧
      ((∀ m ∈ metas, m.Name ≠ "input_ids") → pm1 = pm) ∧
      ((∃ m ∈ metas, m.Name = "input_ids") →
        pm1 = batch.Input.map fun r =>
          paddingRow batch.MaxSequenceLength.toNat r.TokenIDs.length) := by
  induction metas with
  | nil =>
    intro pm pm1 mp mp1 hpm h
    injection h with h
    injection h with h1 h2
    subst h1
    simp [hpm]
  | cons meta rest ih =>
    intro pm pm1 mp mp1 hpm h
    unfold fillTensors at h
    obtain ⟨⟨pm2, mp2⟩, h2, h3⟩ := bind_eq_ok h
    obtain ⟨hm, hl, hne, heq⟩ := fillTensor_ok hpm h2
    obtain ⟨_, hl1, hne1, heq1⟩ := ih hl h3
    refine ⟨fun hb _ => hm hb, hl1, ?_, ?_⟩
    · intro hall
      rw [hne1 (fun m hm => hall m (List.mem_cons_of_mem _ hm)),
        hne (hall meta (List.mem_cons_self _ _))]
    · intro hex
      by_cases hrest : ∃ m ∈ rest, m.Name = "input_ids"
      · exact heq1 hrest
      · have hnone : ∀ m ∈ rest, m.Name ≠ "input_ids" := by
          intro m hm hn
          exact hrest ⟨m, hm, hn⟩
        obtain ⟨m, hm, hn⟩ := hex
        rcases List.mem_cons.mp hm with hm | hm
        · subst hm
          rw [hne1 hnone, heq hn]
        · exact absurd hn (hnone m hm)

theorem paddingRow_length (n len : Nat) : (paddingRow n len).length = n := by
  simp [paddingRow]

theorem paddingRow_getElem? (n len k : Nat) (hk : k < n) :
    (paddingRow n len)[k]? = some (decide (k < len)) := by
  simp [paddingRow, hk]

/-- C1, as the code has it: whenever `createInputTensorsGo` returns no error,
`batch.PaddingMask` has one row per record. When `input_ids` is among the
declared inputs, every row has length `MaxSequenceLength` and
`PaddingMask[j][k]` is true exactly when `k < len(batch.Input[j].TokenIDs)`,
whatever the attention-mask values and the other declared names are. When
`input_ids` is not declared, every row is left empty. -/
theorem createInputTensorsGo_paddingMask (batch : PipelineBatch)
    (inputsMeta : List InputOutputInfo) (out : PipelineBatch)
    (h : createInputTensorsGo batch inputsMeta = .ok out) :
    out.PaddingMask.length = batch.Input.length ∧
    ((∃ m ∈ inputsMeta, m.Name = "input_ids") →
      ∀ (j : Nat) (hj : j < batch.Input.length),
        ∃ row : List Bool, out.PaddingMask[j]? = some row ∧
          (row.length : Int) = batch.MaxSequenceLength ∧
          ∀ k : Nat, (k : Int) < batch.MaxSequenceLength →
            row[k]? = some (decide (k < (batch.Input.get ⟨j, hj⟩).TokenIDs.length))) ∧
    ((∀ m ∈ inputsMeta, m.Name ≠ "input_ids") → ∀ row ∈ out.PaddingMask, row = []) := by
  unfold createInputTensorsGo at h
  simp only [makeSlice_natCast, bind_ok] at h
  obtain ⟨⟨pm1, mp1⟩, h1, h2⟩ := bind_eq_ok h
  injection h2 with h2
  subst h2
  obtain ⟨hm, hl, hne, heq⟩ := fillTensors_ok inputsMeta (by simp) h1
  refine ⟨hl, ?_, ?_⟩
  · intro hex j hj
    have hmetas : inputsMeta ≠ [] := by
      obtain ⟨m, hm, _⟩ := hex
      exact List.ne_nil_of_mem hm
    have hinput : batch.Input ≠ [] := by
      intro hnil
      rw [hnil] at hj
      simp at hj
    have hmax := hm hinput hmetas
    refine ⟨paddingRow batch.MaxSequenceLength.toNat (batch.Input.get ⟨j, hj⟩).TokenIDs.length,
      ?_, ?_, ?_⟩
    · simp only [heq hex]
      rw [List.getElem?_map, List.getElem?_eq_getElem hj]
      rfl
    · rw [paddingRow_length]
      exact Int.toNat_of_nonneg hmax
    · intro k hk
      exact paddingRow_getElem? _ _ k (by omega)
  · intro hall row hrow
    simp only [hne hall] at hrow
    exact List.eq_of_mem_replicate hrow

/-- Witness for the amended C1 on the batch with token lengths `[3, 5, 2]`:
with `input_ids` declared, record 0 gets the mask `[T, T, T, F, F]`. -/
theorem createInputTensorsGo_paddingMask_witness :
    ∃ out : PipelineBatch, createInputTensorsGo batch352 inputsMeta3 = .ok out ∧
      out.PaddingMask.length = 3 ∧
      out.PaddingMask[0]? = some [true, true, true, false, false] :=
  ⟨_, rfl,
    (createInputTensorsGo_paddingMask batch352 inputsMeta3 _ rfl).1, rfl⟩

/-- C1 as stated fails: with only `attention_mask` declared, the call on the
batch with token lengths `[3, 5, 2]` returns no error and leaves all three
mask rows empty, so that record 0 does not get `[T, T, T, F, F]` and no row
has length `MaxSequenceLength = 5`. -/
theorem createInputTensorsGo_paddingMask_without_input_ids :
    ∃ out : PipelineBatch,
      createInputTensorsGo batch352 [{ Name := "attention_mask", Dimensions := [-1, -1] }]
        = .ok out ∧
      out.PaddingMask = [[], [], []] ∧
      out.PaddingMask[0]? ≠ some [true, true, true, false, false] ∧
      ¬ (∀ row ∈ out.PaddingMask, (row.length : Int) = batch352.MaxSequenceLength) :=
  ⟨_, rfl, rfl, by decide, by decide⟩

/-! ## `createInputTensorsGo`: no index leaves its range -/

theorem fillPosition_safe (name : String) (input : TokenizedInput) (k : Nat) (s : FillState)
    (hfields : input.TypeIDs.length = input.TokenIDs.length ∧
      input.AttentionMask.length = input.TokenIDs.length)
    (hc : s.counter < s.backingSlice.length) (hk : k < s.inputPaddingMask.length) :
    fillPosition name input k s ≠ .error (.panic .indexOutOfRange) := by
  unfold fillPosition
  by_cases hlen : k + 1 ≤ input.TokenIDs.length
  · have h0 : k < input.TokenIDs.length := hlen
    have h1 : k < input.TypeIDs.length := by omega
    have h2 : k < input.AttentionMask.length := by omega
    by_cases hn1 : name = "input_ids"
    · simp [hlen, hn1, getAt_of_lt h0, setAt_of_lt _ hc, setAt_of_lt _ hk, bind_ok]
    · by_cases hn2 : name = "token_type_ids"
      · simp [hlen, hn1, hn2, getAt_of_lt h1, setAt_of_lt _ hc, bind_ok]
      · by_cases hn3 : name = "attention_mask"
        · simp [hlen, hn1, hn2, hn3, getAt_of_lt h2, setAt_of_lt _ hc, bind_ok]
        · simp [hlen, hn1, hn2, hn3, notRecognized, bind_error]
  · simp [hlen, setAt_of_lt _ hc, bind_ok]

theorem fillPositions_safe (name : String) (input : TokenizedInput)
    (hfields : input.TypeIDs.length = input.TokenIDs.length ∧
      input.AttentionMask.length = input.TokenIDs.length) (n : Nat) :
    ∀ (k : Nat) (s : FillState), s.counter + n ≤ s.backingSlice.length →
      k + n ≤ s.inputPaddingMask.length →
      fillPositions name input n k s ≠ .error (.panic .indexOutOfRange) := by
  induction n with
  | zero =>
    intro k s _ _ h
    cases h
  | succ n ih =>
    intro k s hc hk
    unfold fillPositions
    cases hstep : fillPosition name input k s with
    | error e =>
      rw [bind_error]
      intro h
      injection h with h
      exact fillPosition_safe name input k s hfields (by omega) (by omega) (by rw [hstep, h])
    | ok s2 =>
      rw [bind_ok]
      obtain ⟨hc2, hb2, hm2⟩ := fillPosition_ok hstep
      have hl2 : s2.inputPaddingMask.length = s.inputPaddingMask.length := by
        rw [hm2]; split <;> simp
      exact ih (k + 1) s2 (by omega) (by omega)

theorem fillRecord_safe (name : String) (m : Int) (j : Nat) (input : TokenizedInput)
    (s : RecordState)
    (hfields : input.TypeIDs.length = input.TokenIDs.length ∧
      input.AttentionMask.length = input.TokenIDs.length)
    (hc : s.counter + m.toNat ≤ s.backingSlice.length)
    (hj : j < s.paddingMasks.length) :
    fillRecord name m j input s ≠ .error (.panic .indexOutOfRange) := by
  unfold fillRecord
  cases hmake : makeSliceInt 1 false m with
  | error e =>
    rw [bind_error]
    intro h
    injection h with h
    unfold makeSliceInt at hmake
    split at hmake
    · injection hmake with hmake
      rw [h] at hmake
      cases hmake
    · cases hmake
  | ok mask =>
    rw [bind_ok]
    obtain ⟨_, _, rfl⟩ := makeSliceInt_eq_ok hmake
    cases hfill : fillPositions name input m.toNat 0
        { backingSlice := s.backingSlice, counter := s.counter,
          inputPaddingMask := List.replicate m.toNat false } with
    | error e =>
      rw [bind_error]
      intro h
      injection h with h
      exact fillPositions_safe name input hfields m.toNat 0
        { backingSlice := s.backingSlice, counter := s.counter,
          inputPaddingMask := List.replicate m.toNat false } hc (by simp) (by rw [hfill, h])
    | ok fs =>
      rw [bind_ok]
      by_cases hn : name = "input_ids"
      · simp [hn, setAt_of_lt _ hj, bind_ok]
      · simp [hn, bind_ok]

theorem fillRecords_safe (name : String) (m : Int) (rs : List TokenizedInput) :
    (∀ r ∈ rs, r.TypeIDs.length = r.TokenIDs.length ∧
      r.AttentionMask.length = r.TokenIDs.length) →
    ∀ (j : Nat) (s : RecordState),
      s.counter + rs.length * m.toNat ≤ s.backingSlice.length →
      j + rs.length ≤ s.paddingMasks.length →
      fillRecords name m rs j s ≠ .error (.panic .indexOutOfRange) := by
  induction rs with
  | nil =>
    intro _ j s _ _ h
    cases h
  | cons r rest ih =>
    intro hf j s hc hj
    simp only [List.length_cons, Nat.succ_mul] at hc hj
    unfold fillRecords
    cases hstep : fillRecord name m j r s with
    | error e =>
      rw [bind_error]
      intro h
      injection h with h
      exact fillRecord_safe name m j r s (hf r (List.mem_cons_self _ _)) (by omega)
        (by omega) (by rw [hstep, h])
    | ok s2 =>
      rw [bind_ok]
      obtain ⟨_, hc2, hb2, hl2, _, _⟩ := fillRecord_ok hstep
      exact ih (fun x hx => hf x (List.mem_cons_of_mem _ hx)) (j + 1) s2 (by omega) (by omega)

theorem fillTensor_safe (batch : PipelineBatch) (inputMeta : InputOutputInfo)
    (pm : List (List Bool)) (mp : TensorMap)
    (hfields : ∀ r ∈ batch.Input, r.TypeIDs.length = r.TokenIDs.length ∧
      r.AttentionMask.length = r.TokenIDs.length)
    (hm : 0 ≤ batch.MaxSequenceLength)
    (hprod : (batch.Input.length : Int) * batch.MaxSequenceLength < 9223372036854775808)
    (hpm : pm.length = batch.Input.length) :
    fillTensor batch inputMeta (pm, mp) ≠ .error (.panic .indexOutOfRange) := by
  unfold fillTensor
  obtain ⟨n, hn⟩ := Int.eq_ofNat_of_zero_le hm
  have hsize : (batch.Input.length : Int) * batch.MaxSequenceLength
      = ((batch.Input.length * n : Nat) : Int) := by rw [hn]; push_cast; rfl
  rw [hsize] at hprod
  have hwrap : wrapInt ((batch.Input.length * n : Nat) : Int)
      = ((batch.Input.length * n : Nat) : Int) := wrapInt_of_range _ (by omega) hprod
  simp only [hsize, hwrap]
  cases hmake : makeSliceInt 8 (0 : Int) ((batch.Input.length * n : Nat) : Int) with
  | error e =>
    rw [bind_error]
    intro h
    injection h with h
    unfold makeSliceInt at hmake
    split at hmake
    · injection hmake with hmake
      rw [h] at hmake
      cases hmake
    · cases hmake
  | ok bs =>
    rw [bind_ok]
    obtain ⟨_, _, rfl⟩ := makeSliceInt_eq_ok hmake
    cases hrec : fillRecords inputMeta.Name batch.MaxSequenceLength batch.Input 0
        { backingSlice := List.replicate (((batch.Input.length * n : Nat) : Int)).toNat 0,
          counter := 0, paddingMasks := pm } with
    | error e =>
      rw [bind_error]
      intro h
      injection h with h
      exact fillRecords_safe inputMeta.Name batch.MaxSequenceLength batch.Input hfields 0
        { backingSlice := List.replicate (((batch.Input.length * n : Nat) : Int)).toNat 0,
          counter := 0, paddingMasks := pm }
        (by
          simp only [List.length_replicate, Int.toNat_ofNat, hn]
          omega)
        (by simp [hpm]) (by rw [hrec, h])
    | ok rs =>
      rw [bind_ok]
      cases hnew : tensorNew [(batch.Input.length : Int), batch.MaxSequenceLength]
          rs.backingSlice with
      | error e =>
        rw [bind_error]
        intro h
        injection h with h
        unfold tensorNew at hnew
        split at hnew
        · injection hnew with hnew
          rw [h] at hnew
          cases hnew
        · cases hnew
      | ok t =>
        rw [bind_ok]
        intro h
        cases h

theorem fillTensors_safe (batch : PipelineBatch)
    (hfields : ∀ r ∈ batch.Input, r.TypeIDs.length = r.TokenIDs.length ∧
      r.AttentionMask.length = r.TokenIDs.length)
    (hm : 0 ≤ batch.MaxSequenceLength)
    (hprod : (batch.Input.length : Int) * batch.MaxSequenceLength < 9223372036854775808)
    (metas : List InputOutputInfo) :
    ∀ (pm : List (List Bool)) (mp : TensorMap), pm.length = batch.Input.length →
      fillTensors batch metas (pm, mp) ≠ .error (.panic .indexOutOfRange) := by
  induction metas with
  | nil =>
    intro pm mp _ h
    cases h
  | cons meta rest ih =>
    intro pm mp hpm
    unfold fillTensors
    cases hstep : fillTensor batch meta (pm, mp) with
    | error e =>
      rw [bind_error]
      intro h
      injection h with h
      exact fillTensor_safe batch meta pm mp hfields hm hprod hpm (by rw [hstep, h])
    | ok r =>
      obtain ⟨pm2, mp2⟩ := r
      rw [bind_ok]
      obtain ⟨_, hl, _, _⟩ := fillTensor_ok hpm hstep
      exact ih pm2 mp2 hl

/-- C9, as the code has it: for a batch whose records have `TokenIDs`,
`TypeIDs` and `AttentionMask` of equal length, a `MaxSequenceLength ≥ 0`
(smaller or larger than the records) for which
`len(batch.Input) * MaxSequenceLength` fits Go's `int` (is below `2^63`), and
any declared inputs, `createInputTensorsGo` never indexes out of range: every
write into the backing slice, a mask row or `paddingMasks` and every read of a
field is bounds-checked in the model, and the call does not end in an
index-out-of-range panic (it may still panic in `make` on a length that is
out of range). -/
theorem createInputTensorsGo_no_index_panic (batch : PipelineBatch)
    (inputsMeta : List InputOutputInfo)
    (hfields : ∀ r ∈ batch.Input, r.TypeIDs.length = r.TokenIDs.length ∧
      r.AttentionMask.length = r.TokenIDs.length)
    (hmax : 0 ≤ batch.MaxSequenceLength)
    (hprod : (batch.Input.length : Int) * batch.MaxSequenceLength < 9223372036854775808) :
    createInputTensorsGo batch inputsMeta ≠ .error (.panic .indexOutOfRange) := by
  unfold createInputTensorsGo
  simp only [makeSlice_natCast, bind_ok]
  cases hrun : fillTensors batch inputsMeta (List.replicate batch.Input.length [], []) with
  | error e =>
    rw [bind_error]
    intro h
    injection h with h
    exact fillTensors_safe batch hfields hmax hprod inputsMeta
      (List.replicate batch.Input.length []) [] (by simp) (by rw [hrun, h])
  | ok r =>
    rw [bind_ok]
    intro h
    cases h

/-- Witness for the amended C9 on the batch with token lengths `[3, 5, 2]` cut
to `MaxSequenceLength` 2, with a declared input the code has no case for. -/
theorem createInputTensorsGo_no_index_panic_witness :
    (∀ r ∈ batch352Short.Input, r.TypeIDs.length = r.TokenIDs.length ∧
      r.AttentionMask.length = r.TokenIDs.length) ∧
    0 ≤ batch352Short.MaxSequenceLength ∧
    (batch352Short.Input.length : Int) * batch352Short.MaxSequenceLength
      < 9223372036854775808 ∧
    createInputTensorsGo batch352Short (inputsMeta3 ++ [pixelValuesMeta])
      ≠ .error (.panic .indexOutOfRange) :=
  ⟨by decide, by decide, by decide,
    createInputTensorsGo_no_index_panic batch352Short (inputsMeta3 ++ [pixelValuesMeta])
      (by decide) (by decide) (by decide)⟩

theorem fillPositions_empty_buffer (input : TokenizedInput) (n k : Nat)
    (hk : k < input.TokenIDs.length) (mask : List Bool) :
    fillPositions "input_ids" input (n + 1) k
        { backingSlice := [], counter := 0, inputPaddingMask := mask } =
      .error (.panic .indexOutOfRange) := by
  have hk1 : k + 1 ≤ input.TokenIDs.length := hk
  unfold fillPositions fillPosition
  simp only [hk1, if_true, getAt_of_lt hk, bind_ok]
  rfl

theorem fillRecord_empty_buffer (input : TokenizedInput) (hlen : 0 < input.TokenIDs.length)
    (b j : Nat) (hb : ((b + 1 : Nat) : Int) ≤ maxAlloc) (pm : List (List Bool)) :
    fillRecord "input_ids" ((b + 1 : Nat) : Int) j input
        { backingSlice := [], counter := 0, paddingMasks := pm } =
      .error (.panic .indexOutOfRange) := by
  unfold fillRecord
  rw [makeSliceInt_natCast 1 false (b + 1) (by omega), bind_ok, Int.toNat_ofNat,
    fillPositions_empty_buffer input b 0 hlen, bind_error]

theorem createInputTensorsGo_wrapped (batch : PipelineBatch) (input : TokenizedInput)
    (rest : List TokenizedInput) (hin : batch.Input = input :: rest)
    (hlen : 0 < input.TokenIDs.length) (b : Nat)
    (hm : batch.MaxSequenceLength = ((b + 1 : Nat) : Int))
    (hwrap : wrapInt ((batch.Input.length : Int) * batch.MaxSequenceLength) = 0)
    (hb : ((b + 1 : Nat) : Int) ≤ maxAlloc) (dims : List Int) :
    createInputTensorsGo batch [{ Name := "input_ids", Dimensions := dims }] =
      .error (.panic .indexOutOfRange) := by
  have hrec : ∀ pm : List (List Bool),
      fillRecords "input_ids" batch.MaxSequenceLength batch.Input 0
          { backingSlice := [], counter := 0, paddingMasks := pm } =
        .error (.panic .indexOutOfRange) := by
    intro pm
    rw [hin, hm]
    unfold fillRecords
    rw [fillRecord_empty_buffer input hlen b 0 hb, bind_error]
  have hmake : makeSliceInt 8 (0 : Int) 0 = .ok [] := rfl
  unfold createInputTensorsGo
  simp only [makeSlice_natCast, bind_ok]
  unfold fillTensors fillTensor
  simp only [hwrap, hmake, bind_ok, hrec, bind_error]

/-- C9 as stated fails: on a batch of `2^32` records of one token each, with
fields of equal length, `MaxSequenceLength` `2^32` and `input_ids` declared,
the product `2^64` wraps to `0` in Go's `int`, the backing slice is made with
length `0`, and the first write `backingSlice[0]` is out of range. -/
theorem createInputTensorsGo_index_panic_on_wrap :
    (∀ r ∈ wrappingBatch.Input, r.TypeIDs.length = r.TokenIDs.length ∧
      r.AttentionMask.length = r.TokenIDs.length) ∧
    0 ≤ wrappingBatch.MaxSequenceLength ∧
    createInputTensorsGo wrappingBatch [{ Name := "input_ids", Dimensions := [-1, -1] }] =
      .error (.panic .indexOutOfRange) :=
  ⟨fun r hr => by rw [List.eq_of_mem_replicate hr]; decide, by decide,
    createInputTensorsGo_wrapped wrappingBatch oneTokenRecord
      (List.replicate 4294967295 oneTokenRecord) (List.replicate_succ ..) (by decide)
      4294967295 rfl
      (by rw [show wrappingBatch.Input.length = 4294967296 from List.length_replicate _ _]
          rfl)
      (by decide) [-1, -1]⟩

/-- C3 fails on the code: on the empty batch and on a batch whose records have
no token, a declared input `pixel_values` that the code has no case for is
not rejected; the call returns no error and stores an empty tensor under that
name. On the batch with token lengths `[3, 5, 2]` the same declared input is
rejected with `input pixel_values not recognized`. -/
theorem createInputTensorsGo_unrecognized_not_rejected :
    createInputTensorsGo emptyBatch [pixelValuesMeta] =
      .ok { emptyBatch with
            InputValues := [("pixel_values", { shape := [0, 0], backing := [] })],
            PaddingMask := [] } ∧
    createInputTensorsGo zeroTokenBatch [pixelValuesMeta] =
      .ok { zeroTokenBatch with
            InputValues := [("pixel_values", { shape := [2, 0], backing := [] })],
            PaddingMask := [[], []] } ∧
    createInputTensorsGo batch352 [pixelValuesMeta] =
      .error (.err "input pixel_values not recognized") :=
  ⟨rfl, rfl, rfl⟩

/-! ## `baselines.go`: a failed full batch is not dropped -/

/-- C6 fails on the code: on 33 records with a pipeline that fails on the
first full batch (`t0 … t31`), the `continue` leaves the batch as it is, so
the failed records stay in it: the next call to `RunPipeline` gets all 33
texts in one batch, the output holds the embeddings of the failed batch's
records and they are counted as processed. -/
theorem sequential_failed_batch_resubmitted :
    Baselines.extractFeatures Baselines.failOnFull Baselines.records33 =
      .ok { output := Baselines.texts33,
            totalProcessed := 33,
            batch := Baselines.texts33,
            submitted := [Baselines.texts33.take 32, Baselines.texts33] } ∧
    (Baselines.failOnFull (Baselines.texts33.take 32)).err = some "execution error" :=
  ⟨rfl, rfl⟩

/-! ## `newTrainingSession`: the default for `Epochs` -/

theorem newTrainingSession_epochs {M P : Type} (ext : Training.Externals M P)
    (T : Training.PipelineType) (runtime : String) (config : Training.TrainingConfig P)
    (session : Training.TrainingSession P)
    (h : Training.newTrainingSession ext T runtime config = .ok session) :
    session.config.Epochs = config.Epochs := by
  unfold Training.newTrainingSession at h
  simp only [] at h
  split at h
  · split at h
    · cases h
    · split at h
      · split at h
        · cases h
        · split at h
          · split at h
            · cases h
            · split at h
              · injection h with h; subst h; rfl
              · injection h with h; subst h; rfl
          · cases h
      · cases h
  · cases h

/-- C10 fails on the code: with runtime `"XLA"` and `Epochs = 0` the call
returns a session whose `config.Epochs` is still `0`, not `1`; the assignment
`config.Epochs = 1` reaches only the parameter, after the session has taken
its copy. -/
theorem newTrainingSession_epochs_zero_kept :
    ∃ session : Training.TrainingSession Unit,
      Training.newTrainingSession Training.okExternals .FeatureExtractionPipeline "XLA"
        (Training.configWithEpochs 0) = .ok session ∧
      session.config.Epochs = 0 ∧ session.config.Epochs ≠ 1 :=
  ⟨_, rfl, rfl, by decide⟩

/-! ## `concurrent_baselines.go`: the batch producer -/

theorem producerBody_spec (B : Nat) (s : ConcurrentBaselines.ProducerState) (row : List String)
    (hrow : 5 < row.length) (hbatch : s.batch.length < B)
    (hsent : ∀ b ∈ s.sent, b.length = B) :
    ∃ s1 : ConcurrentBaselines.ProducerState, ConcurrentBaselines.producerBody B s row = .ok s1 ∧
      s1.batch.length < B ∧ (∀ b ∈ s1.sent, b.length = B) ∧
      s1.sent.flatten ++ s1.batch = s.sent.flatten ++ s.batch ++ [row.getD 5 ""] := by
  unfold ConcurrentBaselines.producerBody
  have hget : row.get ⟨5, hrow⟩ = row.getD 5 "" := by
    simp [List.getD_eq_getElem?_getD, List.getElem?_eq_getElem hrow]
  rw [getAt_of_lt hrow, bind_ok, hget]
  by_cases hfull : (s.batch ++ [row.getD 5 ""]).length = B
  · refine ⟨{ batch := [], sent := s.sent ++ [s.batch ++ [row.getD 5 ""]] },
      by rw [if_pos hfull], ?_, ?_, ?_⟩
    · simp only [List.length_nil]; omega
    · intro b hb
      rcases List.mem_append.mp hb with h | h
      · exact hsent b h
      · rw [List.mem_singleton.mp h]; exact hfull
    · simp
  · refine ⟨{ s with batch := s.batch ++ [row.getD 5 ""] }, by rw [if_neg hfull], ?_,
      hsent, ?_⟩
    · simp only [List.length_append, List.length_singleton] at hfull ⊢
      omega
    · simp

theorem producerLoop_spec (B : Nat) (records : List (List String)) :
    (∀ row ∈ records, 5 < row.length) →
    ∀ s : ConcurrentBaselines.ProducerState, s.batch.length < B → (∀ b ∈ s.sent, b.length = B) →
      ∃ s1 : ConcurrentBaselines.ProducerState, ConcurrentBaselines.producerLoop B records s = .ok s1 ∧
        s1.batch.length < B ∧ (∀ b ∈ s1.sent, b.length = B) ∧
        s1.sent.flatten ++ s1.batch =
          s.sent.flatten ++ s.batch ++ records.map fun row => row.getD 5 "" := by
  induction records with
  | nil =>
    intro _ s hb hs
    exact ⟨s, rfl, hb, hs, by simp⟩
  | cons row rest ih =>
    intro hrows s hb hs
    obtain ⟨s1, h1, hb1, hs1, hcat1⟩ := producerBody_spec B s row
      (hrows row (List.mem_cons_self _ _)) hb hs
    obtain ⟨s2, h2, hb2, hs2, hcat2⟩ :=
      ih (fun r hr => hrows r (List.mem_cons_of_mem _ hr)) s1 hb1 hs1
    refine ⟨s2, ?_, hb2, hs2, ?_⟩
    · unfold ConcurrentBaselines.producerLoop
      rw [h1, bind_ok, h2]
    · rw [hcat2, hcat1]
      simp

theorem length_flatten_of_forall_length {α : Type} (B : Nat) (L : List (List α))
    (h : ∀ b ∈ L, b.length = B) : L.flatten.length = L.length * B := by
  induction L with
  | nil => simp
  | cons b rest ih =>
    rw [List.flatten_cons, List.length_append, h b (List.mem_cons_self _ _),
      ih (fun x hx => h x (List.mem_cons_of_mem _ hx)), List.length_cons, Nat.succ_mul]
    omega

/-- C4: for every batch size `B ≥ 1` (32 in the code) and every sequence of
`N` records that each have the text column `row[5]`, the batch producer sends
`⌈N/B⌉` batches; every batch but the last has exactly `B` entries, the last
has `N mod B` entries (`B` when `N mod B = 0`), no batch is empty, and the
batches concatenated in send order are the records' text fields in their
original order. -/
theorem batchProducer_spec (B : Nat) (hB : 1 ≤ B) (records : List (List String))
    (hrows : ∀ row ∈ records, 5 < row.length) :
    ∃ batches : List (List String),
      ConcurrentBaselines.batchProducer B records = .ok batches ∧
      batches.length = (records.length + B - 1) / B ∧
      (∀ i : Nat, i + 1 < batches.length → ∃ b, batches[i]? = some b ∧ b.length = B) ∧
      (∀ last, batches.getLast? = some last →
        last.length = if records.length % B = 0 then B else records.length % B) ∧
      (∀ b ∈ batches, b ≠ []) ∧
      batches.flatten = records.map fun row => row.getD 5 "" := by
  obtain ⟨s1, hloop, hb1, hs1, hcat⟩ := producerLoop_spec B records hrows
    { batch := [], sent := [] } (by simpa using hB) (by simp)
  simp only [List.flatten_nil, List.nil_append] at hcat
  have hN : records.length = s1.sent.length * B + s1.batch.length := by
    have := congrArg List.length hcat
    rw [List.length_append, length_flatten_of_forall_length B s1.sent hs1,
      List.length_map] at this
    exact this.symm
  have hBpos : 0 < B := hB
  have hmod : records.length % B = s1.batch.length := by
    rw [hN, Nat.mul_comm, Nat.mul_add_mod, Nat.mod_eq_of_lt hb1]
  unfold ConcurrentBaselines.batchProducer
  rw [hloop, bind_ok]
  by_cases hrem : s1.batch.length > 0
  · refine ⟨s1.sent ++ [s1.batch], by rw [if_pos hrem], ?_, ?_, ?_, ?_, ?_⟩
    · rw [List.length_append, List.length_singleton]
      symm
      apply Nat.div_eq_of_lt_le
      · rw [hN, Nat.add_mul]; omega
      · rw [hN, Nat.add_mul, Nat.add_mul]; omega
    · intro i hi
      rw [List.length_append, List.length_singleton] at hi
      have hi1 : i < s1.sent.length := by omega
      refine ⟨s1.sent.get ⟨i, hi1⟩, ?_, hs1 _ (List.get_mem _ _ _)⟩
      rw [List.getElem?_append_left hi1, List.getElem?_eq_getElem hi1]
      rfl
    · intro last hlast
      rw [List.getLast?_append, List.getLast?_singleton] at hlast
      simp only [Option.or_some, Option.some.injEq] at hlast
      subst hlast
      rw [hmod, if_neg (by omega)]
    · intro b hb
      rcases List.mem_append.mp hb with h | h
      · intro hnil
        have := hs1 b h
        rw [hnil] at this
        simp at this
        omega
      · rw [List.mem_singleton.mp h]
        intro hnil
        rw [hnil] at hrem
        simp at hrem
    · rw [List.flatten_append]
      simpa using hcat
  · have hzero : s1.batch = [] := List.length_eq_zero.mp (by omega)
    rw [hzero] at hcat hN hmod
    simp only [List.append_nil, List.length_nil, Nat.add_zero] at hcat hN hmod
    refine ⟨s1.sent, by rw [if_neg hrem], ?_, ?_, ?_, ?_, hcat⟩
    · symm
      apply Nat.div_eq_of_lt_le
      · rw [hN]; omega
      · rw [hN, Nat.add_mul]; omega
    · intro i hi
      have hi1 : i < s1.sent.length := by omega
      refine ⟨s1.sent.get ⟨i, hi1⟩, ?_, hs1 _ (List.get_mem _ _ _)⟩
      rw [List.getElem?_eq_getElem hi1]
      rfl
    · intro last hlast
      rw [hmod, if_pos rfl]
      exact hs1 last (List.mem_of_getLast?_eq_some hlast)
    · intro b hb hnil
      have := hs1 b hb
      rw [hnil] at this
      simp at this
      omega

/-- Witness for C4 with the code's batch size 32 on 33 records: two batches. -/
theorem batchProducer_spec_witness :
    1 ≤ batchSize ∧ (∀ row ∈ Baselines.records33, 5 < row.length) ∧
    ∃ batches : List (List String),
      ConcurrentBaselines.batchProducer batchSize Baselines.records33 = .ok batches ∧
      batches.length = 2 ∧ batches.flatten = Baselines.texts33 :=
  ⟨by decide, by decide,
    (batchProducer_spec batchSize (by decide) Baselines.records33 (by decide)).imp
      fun _ h => ⟨h.1, h.2.1, h.2.2.2.2.2⟩⟩

/-! ## `concurrent_baselines.go`: workers, channels and the collecting loop -/

namespace ConcurrentBaselines

theorem held_set_sending {E : Type} (r : Result E) (ws : List (Worker E)) :
    ∀ i : Nat, ws[i]? = some .receiving →
      (held (ws.set i (.sending r))).Perm (r :: held ws) := by
  induction ws with
  | nil => intro i h; simp at h
  | cons w rest ih =>
    intro i h
    cases i with
    | zero =>
      simp only [List.getElem?_cons_zero, Option.some.injEq] at h
      subst h
      simp [held, List.filterMap_cons]
    | succ i =>
      simp only [List.getElem?_cons_succ] at h
      have := ih i h
      cases w with
      | receiving => simpa [held, List.filterMap_cons] using this
      | done => simpa [held, List.filterMap_cons] using this
      | sending r1 =>
        simp only [held, List.set_cons_succ, List.filterMap_cons] at this ⊢
        exact (List.Perm.cons r1 this).trans (List.Perm.swap r r1 _)

theorem held_set_receiving {E : Type} (r : Result E) (ws : List (Worker E)) :
    ∀ i : Nat, ws[i]? = some (.sending r) →
      (r :: held (ws.set i .receiving)).Perm (held ws) := by
  induction ws with
  | nil => intro i h; simp at h
  | cons w rest ih =>
    intro i h
    cases i with
    | zero =>
      simp only [List.getElem?_cons_zero, Option.some.injEq] at h
      subst h
      simp [held, List.filterMap_cons]
    | succ i =>
      simp only [List.getElem?_cons_succ] at h
      have := ih i h
      cases w with
      | receiving => simpa [held, List.filterMap_cons] using this
      | done => simpa [held, List.filterMap_cons] using this
      | sending r1 =>
        simp only [held, List.set_cons_succ, List.filterMap_cons] at this ⊢
        exact (List.Perm.swap r1 r _).trans (List.Perm.cons r1 this)

theorem held_set_done {E : Type} (ws : List (Worker E)) :
    ∀ i : Nat, ws[i]? = some .receiving → held (ws.set i .done) = held ws := by
  induction ws with
  | nil => intro i h; simp at h
  | cons w rest ih =>
    intro i h
    cases i with
    | zero =>
      simp only [List.getElem?_cons_zero, Option.some.injEq] at h
      subst h
      simp [held, List.filterMap_cons]
    | succ i =>
      simp only [List.getElem?_cons_succ] at h
      have := ih i h
      cases w <;> simp_all [held, List.filterMap_cons]

theorem held_eq_nil_of_done {E : Type} (ws : List (Worker E))
    (h : ∀ w ∈ ws, w = .done) : held ws = [] := by
  induction ws with
  | nil => rfl
  | cons w rest ih =>
    have hw := h w (List.mem_cons_self _ _)
    subst hw
    simpa [held, List.filterMap_cons] using ih (fun x hx => h x (List.mem_cons_of_mem _ hx))

theorem held_replicate_receiving {E : Type} (n : Nat) :
    held (List.replicate n (Worker.receiving : Worker E)) = [] := by
  induction n with
  | zero => rfl
  | succ n ih =>
    rw [List.replicate_succ]
    simp only [held, List.filterMap_cons] at ih ⊢
    exact ih

theorem mem_of_getElem?_eq_some {α : Type} {xs : List α} {i : Nat} {a : α}
    (h : xs[i]? = some a) : a ∈ xs := by
  obtain ⟨hi, rfl⟩ := List.getElem?_eq_some.mp h
  exact List.getElem_mem _

theorem set_ne_nil {α : Type} {xs : List α} (i : Nat) (a : α) (h : xs ≠ []) :
    xs.set i a ≠ [] := by
  intro hnil
  apply h
  have := congrArg List.length hnil
  simp only [List.length_set, List.length_nil] at this
  exact List.length_eq_zero.mp this

theorem sum_map_set {α : Type} (f : α → Nat) (ws : List α) :
    ∀ (i : Nat) (a w : α), ws[i]? = some a →
      ((ws.set i w).map f).sum + f a = (ws.map f).sum + f w := by
  induction ws with
  | nil => intro i a w h; simp at h
  | cons x rest ih =>
    intro i a w h
    cases i with
    | zero =>
      simp only [List.getElem?_cons_zero, Option.some.injEq] at h
      subst h
      simp only [List.set_cons_zero, List.map_cons, List.sum_cons]
      omega
    | succ i =>
      simp only [List.getElem?_cons_succ] at h
      have := ih i a w h
      simp only [List.set_cons_succ, List.map_cons, List.sum_cons]
      omega

theorem exists_not_done {E : Type} (ws : List (Worker E))
    (h : (ws.all fun w => match w with | .done => true | _ => false) = false) :
    ∃ i : Nat, ws[i]? = some Worker.receiving ∨
      ∃ r : Result E, ws[i]? = some (Worker.sending r) := by
  induction ws with
  | nil => simp at h
  | cons w rest ih =>
    cases w with
    | receiving => exact ⟨0, Or.inl (by simp)⟩
    | sending r => exact ⟨0, Or.inr ⟨r, by simp⟩⟩
    | done =>
      simp only [List.all_cons, Bool.true_and] at h
      obtain ⟨i, hi⟩ := ih h
      exact ⟨i + 1, by simpa using hi⟩

theorem embeddings_eq_ok {E : Type} {r : RunResult E} {embeddings : List E}
    (h : r.Embeddings = .ok embeddings) : r.batchResult = some embeddings := by
  unfold RunResult.Embeddings at h
  split at h
  · rename_i e he
    injection h with h
    rw [he, h]
  · cases h

theorem embeddings_of_some {E : Type} {r : RunResult E} {embeddings : List E}
    (h : r.batchResult = some embeddings) : r.Embeddings = .ok embeddings := by
  unfold RunResult.Embeddings
  rw [h]

theorem embeddings_of_none {E : Type} {r : RunResult E} (h : r.batchResult = none) :
    r.Embeddings = .error (.panic .nilDereference) := by
  unfold RunResult.Embeddings
  rw [h]

/-! ### The invariant that holds for every pipeline -/

theorem step_structural {E : Type} {RunPipeline : Nat → List String → RunResult E} {cap : Nat}
    {n : Nat} {s s1 : Sys E} {a : Action}
    (hinv : Structural n s) (h : step RunPipeline cap s a = some (.ok s1)) :
    Structural n s1 := by
  obtain ⟨hcount, htot, hcb, hdone, hcr, hret, hne⟩ := hinv
  unfold Structural
  cases a with
  | produce =>
    simp only [step] at h
    split at h
    · rename_i b rest hsend
      split at h
      · injection h with h
        injection h with h
        subst h
        refine ⟨?_, htot, ?_, ?_, hcr, hret, hne⟩
        · simp only [List.length_append, List.length_cons, List.length_nil]
          rw [hsend] at hcount
          simp only [List.length_cons] at hcount
          omega
        · intro hc
          have := hcb hc
          rw [hsend] at this
          cases this
        · intro w hw hd
          have := hcb (hdone w hw hd).1
          rw [hsend] at this
          cases this
      · cases h
    · cases h
  | closeBatch =>
    simp only [step] at h
    split at h
    · rename_i hsend hclosed
      injection h with h
      injection h with h
      subst h
      refine ⟨hcount, htot, fun _ => hsend, ?_, hcr, hret, hne⟩
      intro w hw hd
      have := (hdone w hw hd).1
      rw [hclosed] at this
      cases this
    · cases h
  | receive i =>
    simp only [step] at h
    split at h
    · rename_i b rest hw hb
      split at h
      · injection h with h
        cases h
      · injection h with h
        injection h with h
        subst h
        refine ⟨?_, htot, hcb, ?_, ?_, hret, set_ne_nil _ _ hne⟩
        · rw [hb] at hcount
          simp only [List.length_cons] at hcount
          show s.calls + 1 + rest.length + s.toSend.length = n
          omega
        · intro w hw1 hd
          rcases List.mem_or_eq_of_mem_set hw1 with h1 | h1
          · have := (hdone w h1 hd).2
            rw [hb] at this
            cases this
          · rw [h1] at hd
            cases hd
        · intro hc
          have := hcr hc _ (mem_of_getElem?_eq_some hw)
          cases this
    · cases h
  | workerExit i =>
    simp only [step] at h
    split at h
    · rename_i hw hb hc
      injection h with h
      injection h with h
      subst h
      refine ⟨hcount, htot, hcb, ?_, ?_, hret, set_ne_nil _ _ hne⟩
      · intro w hw1 hd
        rcases List.mem_or_eq_of_mem_set hw1 with h1 | h1
        · exact hdone w h1 hd
        · exact ⟨hc, hb⟩
      · intro hclosed
        have := hcr hclosed _ (mem_of_getElem?_eq_some hw)
        cases this
    · cases h
  | sendResult i =>
    simp only [step] at h
    split at h
    · rename_i r hw
      split at h
      · injection h with h
        injection h with h
        subst h
        have hnot : s.resultClosed = true → False := by
          intro hc
          have := hcr hc _ (mem_of_getElem?_eq_some hw)
          cases this
        refine ⟨hcount, htot, hcb, ?_, fun hc => (hnot hc).elim,
          fun hr => (hnot (hret hr).1).elim, set_ne_nil _ _ hne⟩
        intro w hw1 hd
        rcases List.mem_or_eq_of_mem_set hw1 with h1 | h1
        · exact hdone w h1 hd
        · rw [h1] at hd
          cases hd
      · cases h
    · cases h
  | closeResult =>
    simp only [step] at h
    split at h
    · rename_i hcond
      obtain ⟨hall, hclosed⟩ := hcond
      injection h with h
      injection h with h
      subst h
      refine ⟨hcount, htot, hcb, hdone, ?_, ?_, hne⟩
      · intro _ w hw
        have := List.all_eq_true.mp hall w hw
        cases w <;> simp_all
      · intro hr
        have := (hret hr).1
        rw [hclosed] at this
        cases this
    · cases h
  | collect =>
    simp only [step] at h
    split at h
    · rename_i res rest hr hrc
      have hnot : s.returned = true → False := by
        intro h1
        rw [hr] at h1
        cases h1
      split at h
      · injection h with h
        injection h with h
        subst h
        exact ⟨hcount, htot, hcb, hdone, hcr, fun h1 => (hnot h1).elim, hne⟩
      · injection h with h
        injection h with h
        subst h
        refine ⟨hcount, ?_, hcb, hdone, hcr, fun h1 => (hnot h1).elim, hne⟩
        simp only [List.length_append]
        rw [htot]
    · cases h
  | finish =>
    simp only [step] at h
    split at h
    · rename_i hr hrc hcl
      injection h with h
      injection h with h
      subst h
      exact ⟨hcount, htot, hcb, hdone, hcr, fun _ => ⟨hcl, hrc⟩, hne⟩
    · cases h

theorem exec_cons_ok {E : Type} {RunPipeline : Nat → List String → RunResult E} {cap : Nat}
    {s s1 : Sys E} {a : Action} {rest : List Action}
    (h : exec RunPipeline cap s (a :: rest) = some (.ok s1)) :
    ∃ s2 : Sys E, step RunPipeline cap s a = some (.ok s2) ∧
      exec RunPipeline cap s2 rest = some (.ok s1) := by
  unfold exec at h
  split at h
  · cases h
  · injection h with h
    cases h
  · rename_i s2 hs2
    exact ⟨s2, hs2, h⟩

theorem exec_structural {E : Type} {RunPipeline : Nat → List String → RunResult E}
    {cap : Nat} {n : Nat} (schedule : List Action) :
    ∀ {s s1 : Sys E}, Structural n s →
      exec RunPipeline cap s schedule = some (.ok s1) → Structural n s1 := by
  induction schedule with
  | nil =>
    intro s s1 hinv h
    unfold exec at h
    injection h with h
    injection h with h
    rw [← h]
    exact hinv
  | cons a rest ih =>
    intro s s1 hinv h
    obtain ⟨s2, hstep, hrest⟩ := exec_cons_ok h
    exact ih (step_structural hinv hstep) hrest

theorem structural_initial {E : Type} (batches : List (List String)) (n : Nat)
    (hn : 0 < n) : Structural batches.length (initial batches n : Sys E) := by
  unfold Structural initial
  refine ⟨by simp, rfl, ?_, ?_, ?_, ?_, ?_⟩
  · intro h; cases h
  · intro w hw hd
    rw [List.eq_of_mem_replicate hw] at hd
    cases hd
  · intro h; cases h
  · intro h; cases h
  · intro hnil
    have := congrArg List.length hnil
    simp at this
    omega

/-- Once the function has returned, every batch has been handed to
`RunPipeline` and nothing is in flight any more. -/
theorem structural_returned {E : Type} {n : Nat} {s : Sys E} (hinv : Structural n s)
    (hret : s.returned = true) :
    s.calls = n ∧ s.resultCh = [] ∧ held s.workers = [] ∧ s.batchCh = [] ∧ s.toSend = [] ∧
      s.totalProcessed = s.output.length := by
  obtain ⟨hcount, htot, hcb, hdone, hcr, hret1, hne⟩ := hinv
  obtain ⟨hclosed, hrc⟩ := hret1 hret
  have hall := hcr hclosed
  obtain ⟨w, hw⟩ := List.exists_mem_of_ne_nil _ hne
  obtain ⟨hbc, hbch⟩ := hdone w hw (hall w hw)
  have hsend := hcb hbc
  rw [hbch, hsend] at hcount
  simp only [List.length_nil, Nat.add_zero] at hcount
  exact ⟨hcount, hrc, held_eq_nil_of_done _ hall, hbch, hsend, htot⟩

/-! ### The invariant for a pipeline that never fails -/

theorem sum_lengths_perm {E : Type} {l1 l2 : List (Result E)} (h : l1.Perm l2) :
    (l1.map fun r => r.embeddings.length).sum = (l2.map fun r => r.embeddings.length).sum :=
  (h.map _).sum_eq

theorem step_counted {E : Type} {RunPipeline : Nat → List String → RunResult E} {cap : Nat}
    (hrun : ∀ n batch, (RunPipeline n batch).err = none ∧
      ∃ embeddings, (RunPipeline n batch).batchResult = some embeddings ∧
        embeddings.length = batch.length)
    {total : Nat} {s s1 : Sys E} {a : Action}
    (hinv : Counted total s) (h : step RunPipeline cap s a = some (.ok s1)) :
    Counted total s1 := by
  obtain ⟨hsum, herr⟩ := hinv
  unfold Counted
  cases a with
  | produce =>
    simp only [step] at h
    split at h
    · rename_i b rest hsend
      split at h
      · injection h with h
        injection h with h
        subst h
        have e : (s.batchCh ++ [b]) ++ rest = s.batchCh ++ s.toSend := by
          rw [hsend]; simp
        simp only [e]
        exact ⟨hsum, herr⟩
      · cases h
    · cases h
  | closeBatch =>
    simp only [step] at h
    split at h
    · injection h with h
      injection h with h
      subst h
      exact ⟨hsum, herr⟩
    · cases h
  | receive i =>
    simp only [step] at h
    split at h
    · rename_i b rest hw hb
      split at h
      · injection h with h
        cases h
      · rename_i embeddings hemb
        injection h with h
        injection h with h
        subst h
        obtain ⟨herr0, e0, hres, hlen⟩ := hrun s.calls b
        have hemb1 := embeddings_eq_ok hemb
        rw [hres] at hemb1
        injection hemb1 with hemb1
        subst hemb1
        have h1 := held_set_sending
          ({ embeddings := e0, err := (RunPipeline s.calls b).err } : Result E) s.workers i hw
        have h2 : (s.resultCh ++ held (s.workers.set i
            (.sending { embeddings := e0, err := (RunPipeline s.calls b).err }))).Perm
            (({ embeddings := e0, err := (RunPipeline s.calls b).err } : Result E) ::
              (s.resultCh ++ held s.workers)) :=
          (List.Perm.append_left s.resultCh h1).trans List.perm_middle
        refine ⟨?_, ?_⟩
        · show s.output.length + _ + _ = total
          rw [sum_lengths_perm h2]
          rw [hb] at hsum
          simp only [List.cons_append, List.map_cons, List.sum_cons] at hsum ⊢
          omega
        · intro r hr
          rcases List.mem_cons.mp (h2.mem_iff.mp hr) with h3 | h3
          · rw [h3]
            exact herr0
          · exact herr r h3
    · cases h
  | workerExit i =>
    simp only [step] at h
    split at h
    · rename_i hw hb hc
      injection h with h
      injection h with h
      subst h
      simp only [held_set_done _ i hw]
      exact ⟨hsum, herr⟩
    · cases h
  | sendResult i =>
    simp only [step] at h
    split at h
    · rename_i r hw
      split at h
      · injection h with h
        injection h with h
        subst h
        have h1 := held_set_receiving r s.workers i hw
        have h2 : ((s.resultCh ++ [r]) ++ held (s.workers.set i .receiving)).Perm
            (s.resultCh ++ held s.workers) := by
          rw [List.append_assoc]
          exact List.Perm.append_left _ h1
        refine ⟨?_, ?_⟩
        · show s.output.length + _ + _ = total
          rw [sum_lengths_perm h2]
          exact hsum
        · intro r1 hr1
          exact herr r1 (h2.mem_iff.mp hr1)
      · cases h
    · cases h
  | closeResult =>
    simp only [step] at h
    split at h
    · injection h with h
      injection h with h
      subst h
      exact ⟨hsum, herr⟩
    · cases h
  | collect =>
    simp only [step] at h
    split at h
    · rename_i res rest hr hrc
      have hres : res.err = none := herr res (by rw [hrc]; simp)
      rw [hrc] at hsum herr
      split at h
      · rename_i hsome
        rw [hres] at hsome
        cases hsome
      · injection h with h
        injection h with h
        subst h
        refine ⟨?_, ?_⟩
        · show (s.output ++ res.embeddings).length + _ + _ = total
          simp only [List.cons_append, List.map_cons, List.sum_cons, List.length_append]
            at hsum ⊢
          omega
        · intro r1 hr1
          exact herr r1 (by
            rcases List.mem_append.mp hr1 with h3 | h3
            · exact List.mem_append.mpr (Or.inl (List.mem_cons_of_mem _ h3))
            · exact List.mem_append.mpr (Or.inr h3))
    · cases h
  | finish =>
    simp only [step] at h
    split at h
    · injection h with h
      injection h with h
      subst h
      exact ⟨hsum, herr⟩
    · cases h

theorem exec_counted {E : Type} {RunPipeline : Nat → List String → RunResult E} {cap : Nat}
    (hrun : ∀ n batch, (RunPipeline n batch).err = none ∧
      ∃ embeddings, (RunPipeline n batch).batchResult = some embeddings ∧
        embeddings.length = batch.length)
    {total : Nat} (schedule : List Action) :
    ∀ {s s1 : Sys E}, Counted total s →
      exec RunPipeline cap s schedule = some (.ok s1) → Counted total s1 := by
  induction schedule with
  | nil =>
    intro s s1 hinv h
    unfold exec at h
    injection h with h
    injection h with h
    rw [← h]
    exact hinv
  | cons a rest ih =>
    intro s s1 hinv h
    obtain ⟨s2, hstep, hrest⟩ := exec_cons_ok h
    exact ih (step_counted hrun hinv hstep) hrest

theorem counted_initial {E : Type} (batches : List (List String)) (n : Nat) :
    Counted batches.flatten.length (initial batches n : Sys E) := by
  unfold Counted initial
  refine ⟨?_, ?_⟩
  · simp [held_replicate_receiving, List.length_flatten]
  · intro r hr
    simp [held_replicate_receiving] at hr

theorem counted_returned {E : Type} {n total : Nat} {s : Sys E}
    (hs : Structural n s) (hc : Counted total s) (hret : s.returned = true) :
    s.output.length = total ∧ s.totalProcessed = total := by
  obtain ⟨_, hrc, hheld, hbch, hsend, htot⟩ := structural_returned hs hret
  obtain ⟨hsum, _⟩ := hc
  rw [hrc, hheld, hbch, hsend] at hsum
  simp only [List.append_nil, List.map_nil, List.sum_nil, Nat.add_zero] at hsum
  exact ⟨hsum, by rw [htot, hsum]⟩

/-! ### Every run ends -/

theorem step_movesLeft {E : Type} {RunPipeline : Nat → List String → RunResult E} {cap : Nat}
    {s s1 : Sys E} {a : Action} (h : step RunPipeline cap s a = some (.ok s1)) :
    movesLeft s1 + 1 = movesLeft s := by
  cases a with
  | produce =>
    simp only [step] at h
    split at h
    · rename_i b rest hsend
      split at h
      · injection h with h
        injection h with h
        subst h
        simp only [movesLeft, hsend, List.length_append, List.length_cons, List.length_nil]
        omega
      · cases h
    · cases h
  | closeBatch =>
    simp only [step] at h
    split at h
    · rename_i hsend hclosed
      injection h with h
      injection h with h
      subst h
      simp only [movesLeft, hclosed, Bool.false_eq_true, if_false, if_true]
      omega
    · cases h
  | receive i =>
    simp only [step] at h
    split at h
    · rename_i b rest hw hb
      split at h
      · injection h with h
        cases h
      · rename_i embeddings hemb
        injection h with h
        injection h with h
        subst h
        have hsum := sum_map_set (fun w : Worker E => match w with
          | .receiving => 1 | .sending _ => 3 | .done => 0) s.workers i .receiving
          (.sending { embeddings := embeddings, err := (RunPipeline s.calls b).err }) hw
        simp only [movesLeft, hb, List.length_cons]
        simp only [] at hsum
        omega
    · cases h
  | workerExit i =>
    simp only [step] at h
    split at h
    · rename_i hw hb hc
      injection h with h
      injection h with h
      subst h
      have hsum := sum_map_set (fun w : Worker E => match w with
        | .receiving => 1 | .sending _ => 3 | .done => 0) s.workers i .receiving .done hw
      simp only [movesLeft]
      simp only [] at hsum
      omega
    · cases h
  | sendResult i =>
    simp only [step] at h
    split at h
    · rename_i r hw
      split at h
      · injection h with h
        injection h with h
        subst h
        have hsum := sum_map_set (fun w : Worker E => match w with
          | .receiving => 1 | .sending _ => 3 | .done => 0) s.workers i (.sending r)
          .receiving hw
        simp only [movesLeft, List.length_append, List.length_cons, List.length_nil]
        simp only [] at hsum
        omega
      · cases h
    · cases h
  | closeResult =>
    simp only [step] at h
    split at h
    · rename_i hcond
      injection h with h
      injection h with h
      subst h
      simp only [movesLeft, hcond.2, Bool.false_eq_true, if_false, if_true]
      omega
    · cases h
  | collect =>
    simp only [step] at h
    split at h
    · rename_i res rest hr hrc
      split at h
      · injection h with h
        injection h with h
        subst h
        simp only [movesLeft, hrc, List.length_cons]
        omega
      · injection h with h
        injection h with h
        subst h
        simp only [movesLeft, hrc, List.length_cons]
        omega
    · cases h
  | finish =>
    simp only [step] at h
    split at h
    · rename_i hr hrc hcl
      injection h with h
      injection h with h
      subst h
      simp only [movesLeft, hr, Bool.false_eq_true, if_false, if_true]
    · cases h

theorem exec_movesLeft {E : Type} {RunPipeline : Nat → List String → RunResult E} {cap : Nat}
    (schedule : List Action) :
    ∀ {s s1 : Sys E}, exec RunPipeline cap s schedule = some (.ok s1) →
      movesLeft s1 + schedule.length = movesLeft s := by
  induction schedule with
  | nil =>
    intro s s1 h
    unfold exec at h
    injection h with h
    injection h with h
    rw [h]
    rfl
  | cons a rest ih =>
    intro s s1 h
    obtain ⟨s2, hstep, hrest⟩ := exec_cons_ok h
    have h1 := ih hrest
    have h2 := step_movesLeft hstep
    simp only [List.length_cons]
    omega

theorem exec_append {E : Type} {RunPipeline : Nat → List String → RunResult E} {cap : Nat}
    (first : List Action) :
    ∀ (rest : List Action) {s s1 : Sys E}, exec RunPipeline cap s first = some (.ok s1) →
      exec RunPipeline cap s (first ++ rest) = exec RunPipeline cap s1 rest := by
  induction first with
  | nil =>
    intro rest s s1 h
    unfold exec at h
    injection h with h
    injection h with h
    rw [h]
    rfl
  | cons a more ih =>
    intro rest s s1 h
    obtain ⟨s2, hstep, hrest⟩ := exec_cons_ok h
    simp only [List.cons_append, exec, hstep]
    exact ih rest hrest

/-- While the function has not returned, some goroutine can move without a
panic, as long as the channels have room for one element and `RunPipeline`
never hands back a nil result: no state is a deadlock. -/
theorem progress {E : Type} (RunPipeline : Nat → List String → RunResult E) (cap : Nat)
    (hcap : 0 < cap)
    (hres : ∀ n batch, ∃ embeddings, (RunPipeline n batch).batchResult = some embeddings)
    (s : Sys E) (hret : s.returned = false) :
    ∃ (a : Action) (s1 : Sys E), step RunPipeline cap s a = some (.ok s1) := by
  cases hrc : s.resultCh with
  | cons res rest =>
    refine ⟨.collect, ?_⟩
    simp only [step, hret, hrc]
    split <;> exact ⟨_, rfl⟩
  | nil =>
    cases hcl : s.resultClosed with
    | true =>
      refine ⟨.finish, ?_⟩
      simp only [step, hret, hrc, hcl]
      exact ⟨_, rfl⟩
    | false =>
      cases hall : (s.workers.all fun w => match w with | .done => true | _ => false) with
      | true =>
        refine ⟨.closeResult, ?_⟩
        simp only [step, hall, hcl, and_self, if_true]
        exact ⟨_, rfl⟩
      | false =>
        obtain ⟨i, hi | ⟨r, hi⟩⟩ := exists_not_done s.workers hall
        · cases hbc : s.batchCh with
          | cons b rest =>
            obtain ⟨embeddings, hemb⟩ := hres s.calls b
            refine ⟨.receive i, ?_⟩
            simp only [step, hi, hbc, embeddings_of_some hemb]
            exact ⟨_, rfl⟩
          | nil =>
            cases hb : s.batchClosed with
            | true =>
              refine ⟨.workerExit i, ?_⟩
              simp only [step, hi, hbc, hb]
              exact ⟨_, rfl⟩
            | false =>
              cases hs : s.toSend with
              | nil =>
                refine ⟨.closeBatch, ?_⟩
                simp only [step, hs, hb]
                exact ⟨_, rfl⟩
              | cons b rest =>
                refine ⟨.produce, ?_⟩
                simp only [step, hs, hbc, List.length_nil, hcap, if_true]
                exact ⟨_, rfl⟩
        · refine ⟨.sendResult i, ?_⟩
          simp only [step, hi, hrc, List.length_nil, hcap, if_true]
          exact ⟨_, rfl⟩

/-- Every state can be run on to a state in which the function has returned. -/
theorem exists_completion {E : Type} (RunPipeline : Nat → List String → RunResult E)
    (cap : Nat) (hcap : 0 < cap)
    (hres : ∀ n batch, ∃ embeddings, (RunPipeline n batch).batchResult = some embeddings) :
    ∀ (n : Nat) (s : Sys E), movesLeft s ≤ n →
      ∃ (rest : List Action) (s1 : Sys E),
        exec RunPipeline cap s rest = some (.ok s1) ∧ s1.returned = true := by
  intro n
  induction n with
  | zero =>
    intro s hn
    cases hret : s.returned with
    | true => exact ⟨[], s, rfl, hret⟩
    | false =>
      simp only [movesLeft, hret, Bool.false_eq_true, if_false] at hn
      omega
  | succ n ih =>
    intro s hn
    cases hret : s.returned with
    | true => exact ⟨[], s, rfl, hret⟩
    | false =>
      obtain ⟨a, s2, hs2⟩ := progress RunPipeline cap hcap hres s hret
      have hm := step_movesLeft hs2
      obtain ⟨rest, s1, hrun, hr⟩ := ih s2 (by omega)
      exact ⟨a :: rest, s1, by simp only [exec, hs2, hrun], hr⟩

theorem step_no_panic {E : Type} (RunPipeline : Nat → List String → RunResult E) (cap : Nat)
    (hres : ∀ n batch, ∃ embeddings, (RunPipeline n batch).batchResult = some embeddings)
    (s : Sys E) (a : Action) (f : Failure) :
    step RunPipeline cap s a ≠ some (.error f) := by
  intro h
  cases a with
  | produce =>
    simp only [step] at h
    split at h
    · split at h
      · injection h with h; cases h
      · cases h
    · cases h
  | closeBatch =>
    simp only [step] at h
    split at h
    · injection h with h; cases h
    · cases h
  | receive i =>
    simp only [step] at h
    split at h
    · rename_i b rest hw hb
      obtain ⟨embeddings, hemb⟩ := hres s.calls b
      rw [embeddings_of_some hemb] at h
      simp only [] at h
      injection h with h
      cases h
    · cases h
  | workerExit i =>
    simp only [step] at h
    split at h
    · injection h with h; cases h
    · cases h
  | sendResult i =>
    simp only [step] at h
    split at h
    · split at h
      · injection h with h; cases h
      · cases h
    · cases h
  | closeResult =>
    simp only [step] at h
    split at h
    · injection h with h; cases h
    · cases h
  | collect =>
    simp only [step] at h
    split at h
    · split at h
      · injection h with h; cases h
      · injection h with h; cases h
    · cases h
  | finish =>
    simp only [step] at h
    split at h
    · injection h with h; cases h
    · cases h

theorem exec_no_panic {E : Type} (RunPipeline : Nat → List String → RunResult E) (cap : Nat)
    (hres : ∀ n batch, ∃ embeddings, (RunPipeline n batch).batchResult = some embeddings)
    (schedule : List Action) :
    ∀ (s : Sys E) (f : Failure), exec RunPipeline cap s schedule ≠ some (.error f) := by
  induction schedule with
  | nil =>
    intro s f h
    unfold exec at h
    injection h with h
    cases h
  | cons a rest ih =>
    intro s f h
    unfold exec at h
    split at h
    · cases h
    · rename_i f1 hstep
      exact step_no_panic RunPipeline cap hres s a f1 hstep
    · rename_i s2 hstep
      exact ih s2 f h

/-! ### A nil result on the first call -/

theorem step_calls_zero {E : Type} {RunPipeline : Nat → List String → RunResult E}
    {cap : Nat} (hnil : ∀ batch, (RunPipeline 0 batch).batchResult = none)
    {s s1 : Sys E} {a : Action} (hcalls : s.calls = 0)
    (h : step RunPipeline cap s a = some (.ok s1)) : s1.calls = 0 := by
  cases a with
  | produce =>
    simp only [step] at h
    split at h
    · split at h
      · injection h with h
        injection h with h
        subst h
        exact hcalls
      · cases h
    · cases h
  | closeBatch =>
    simp only [step] at h
    split at h
    · injection h with h
      injection h with h
      subst h
      exact hcalls
    · cases h
  | receive i =>
    simp only [step] at h
    split at h
    · rename_i b rest hw hb
      rw [hcalls, embeddings_of_none (hnil b)] at h
      simp only [] at h
      injection h with h
      cases h
    · cases h
  | workerExit i =>
    simp only [step] at h
    split at h
    · injection h with h
      injection h with h
      subst h
      exact hcalls
    · cases h
  | sendResult i =>
    simp only [step] at h
    split at h
    · split at h
      · injection h with h
        injection h with h
        subst h
        exact hcalls
      · cases h
    · cases h
  | closeResult =>
    simp only [step] at h
    split at h
    · injection h with h
      injection h with h
      subst h
      exact hcalls
    · cases h
  | collect =>
    simp only [step] at h
    split at h
    · split at h
      · injection h with h
        injection h with h
        subst h
        exact hcalls
      · injection h with h
        injection h with h
        subst h
        exact hcalls
    · cases h
  | finish =>
    simp only [step] at h
    split at h
    · injection h with h
      injection h with h
      subst h
      exact hcalls
    · cases h

theorem exec_calls_zero {E : Type} {RunPipeline : Nat → List String → RunResult E}
    {cap : Nat} (hnil : ∀ batch, (RunPipeline 0 batch).batchResult = none)
    (schedule : List Action) :
    ∀ {s s1 : Sys E}, s.calls = 0 → exec RunPipeline cap s schedule = some (.ok s1) →
      s1.calls = 0 := by
  induction schedule with
  | nil =>
    intro s s1 hcalls h
    unfold exec at h
    injection h with h
    injection h with h
    rw [← h]
    exact hcalls
  | cons a rest ih =>
    intro s s1 hcalls h
    obtain ⟨s2, hstep, hrest⟩ := exec_cons_ok h
    exact ih (step_calls_zero hnil hcalls hstep) hrest

/-- With a pipeline whose first call hands back a nil result, no run from the
start state over at least one batch ends with the function returned. -/
theorem never_returned {E : Type} {RunPipeline : Nat → List String → RunResult E}
    {cap : Nat} (hnil : ∀ batch, (RunPipeline 0 batch).batchResult = none)
    (batches : List (List String)) (hne : batches ≠ []) (n : Nat) (hn : 0 < n)
    (schedule : List Action) (s : Sys E)
    (h : exec RunPipeline cap (initial batches n) schedule = some (.ok s)) :
    s.returned = false := by
  cases hret : s.returned with
  | false => rfl
  | true =>
    have hs := exec_structural schedule (structural_initial (E := E) batches n hn) h
    have hcalls := exec_calls_zero hnil schedule (s := initial batches n) rfl h
    obtain ⟨hcount, _⟩ := structural_returned hs hret
    rw [hcalls] at hcount
    exact absurd (List.length_eq_zero.mp hcount.symm) hne

/-- The schedule in which the producer sends the first batch and worker 0
takes it ends in the nil pointer dereference, when the first call of
`RunPipeline` hands back a nil result. -/
theorem first_receive_panics {E : Type} {RunPipeline : Nat → List String → RunResult E}
    {cap : Nat} (hcap : 0 < cap) (hnil : ∀ batch, (RunPipeline 0 batch).batchResult = none)
    (batches : List (List String)) (hne : batches ≠ []) (n : Nat) :
    exec RunPipeline cap (initial batches (n + 1)) [.produce, .receive 0] =
      some (.error (.panic .nilDereference)) := by
  match batches, hne with
  | b :: rest, _ =>
    simp only [exec, step, initial, List.length_nil, hcap, if_true, List.nil_append,
      List.replicate_succ, List.getElem?_cons_zero, embeddings_of_none (hnil b)]

/-! ### From the call to the goroutines -/

theorem batchProducer_ok (B : Nat) (hB : 1 ≤ B) (records : List (List String))
    (hrows : ∀ row ∈ records, 5 < row.length) :
    ∃ batches : List (List String), batchProducer B records = .ok batches ∧
      batches.flatten = records.map fun row => row.getD 5 "" := by
  obtain ⟨s1, hloop, _, _, hcat⟩ := producerLoop_spec B records hrows
    { batch := [], sent := [] } (by simpa using hB) (by simp)
  simp only [List.flatten_nil, List.nil_append] at hcat
  unfold batchProducer
  rw [hloop, bind_ok]
  by_cases hrem : s1.batch.length > 0
  · exact ⟨s1.sent ++ [s1.batch], by rw [if_pos hrem], by
      rw [List.flatten_append]; simpa using hcat⟩
  · have hzero : s1.batch = [] := List.length_eq_zero.mp (by omega)
    rw [hzero, List.append_nil] at hcat
    exact ⟨s1.sent, by rw [if_neg hrem], hcat⟩

theorem start_ok {E : Type} (records : GoSlice (List String))
    (hN : recordLimit ≤ records.elems.length + records.spare.length)
    (hrows : ∀ row ∈ (records.elems ++ records.spare).take recordLimit, 5 < row.length) :
    ∃ batches : List (List String),
      start (E := E) records =
        .ok (recordLimit / batchSize + 1, initial batches numWorkers) ∧
      batchProducer batchSize ((records.elems ++ records.spare).take recordLimit)
        = .ok batches ∧
      batches.flatten.length = recordLimit := by
  obtain ⟨batches, hprod, hflat⟩ := batchProducer_ok batchSize (by decide)
    ((records.elems ++ records.spare).take recordLimit) hrows
  refine ⟨batches, ?_, hprod, ?_⟩
  · unfold start resliceTo
    rw [if_pos hN, bind_ok]
    simp only [hprod, bind_ok]
    have hlen : ((records.elems ++ records.spare).take recordLimit).length = recordLimit := by
      rw [List.length_take, List.length_append]
      omega
    rw [hlen]
  · rw [hflat, List.length_map, List.length_take, List.length_append]
    omega

theorem extractFeatures_of_start {E : Type} {RunPipeline : Nat → List String → RunResult E}
    {records : GoSlice (List String)} {cap : Nat} {init : Sys E}
    (hstart : start records = .ok (cap, init)) (schedule : List Action) :
    extractFeatures RunPipeline records schedule =
      match exec RunPipeline cap init schedule with
      | some (.ok s) => if s.returned then .ok (some (s.output, s.totalProcessed)) else .ok none
      | some (.error f) => .error f
      | none => .ok none := by
  unfold extractFeatures
  rw [hstart, bind_ok]

theorem extractFeatures_eq_some {E : Type} {RunPipeline : Nat → List String → RunResult E}
    {records : GoSlice (List String)} {cap : Nat} {init : Sys E}
    (hstart : start records = .ok (cap, init)) {schedule : List Action} {output : List E}
    {total : Nat}
    (h : extractFeatures RunPipeline records schedule = .ok (some (output, total))) :
    ∃ s : Sys E, exec RunPipeline cap init schedule = some (.ok s) ∧ s.returned = true ∧
      s.output = output ∧ s.totalProcessed = total := by
  rw [extractFeatures_of_start hstart] at h
  split at h
  · rename_i s hs
    split at h
    · rename_i hr
      injection h with h
      injection h with h
      injection h with h1 h2
      exact ⟨s, hs, hr, h1, h2⟩
    · injection h with h
      cases h
  · cases h
  · injection h with h
    cases h

theorem extractFeatures_eq_error {E : Type} {RunPipeline : Nat → List String → RunResult E}
    {records : GoSlice (List String)} {cap : Nat} {init : Sys E}
    (hstart : start records = .ok (cap, init)) {schedule : List Action} {f : Failure}
    (h : extractFeatures RunPipeline records schedule = .error f) :
    exec RunPipeline cap init schedule = some (.error f) := by
  rw [extractFeatures_of_start hstart] at h
  split at h
  · split at h <;> cases h
  · rename_i f1 hs
    injection h with h
    rw [hs, h]
  · cases h

theorem extractFeatures_of_returned {E : Type} {RunPipeline : Nat → List String → RunResult E}
    {records : GoSlice (List String)} {cap : Nat} {init : Sys E}
    (hstart : start records = .ok (cap, init)) {schedule : List Action} {s : Sys E}
    (h : exec RunPipeline cap init schedule = some (.ok s)) (hret : s.returned = true) :
    extractFeatures RunPipeline records schedule = .ok (some (s.output, s.totalProcessed)) := by
  rw [extractFeatures_of_start hstart, h]
  simp only [hret, if_true]

theorem exec_completes {E : Type} (RunPipeline : Nat → List String → RunResult E)
    (hres : ∀ n batch, ∃ embeddings, (RunPipeline n batch).batchResult = some embeddings)
    {records : GoSlice (List String)} {cap : Nat} {init : Sys E} (hcap : 0 < cap)
    (hstart : start records = .ok (cap, init)) {schedule : List Action} {s : Sys E}
    (h : exec RunPipeline cap init schedule = some (.ok s)) :
    schedule.length ≤ movesLeft init ∧
      ∃ (rest : List Action) (result : List E × Nat),
        extractFeatures RunPipeline records (schedule ++ rest) = .ok (some result) := by
  refine ⟨by have := exec_movesLeft schedule h; omega, ?_⟩
  obtain ⟨rest, s1, hrun, hret⟩ := exists_completion RunPipeline cap hcap hres (movesLeft s) s
    (Nat.le_refl _)
  refine ⟨rest, (s1.output, s1.totalProcessed), ?_⟩
  exact extractFeatures_of_returned hstart ((exec_append schedule rest h).trans hrun) hret

theorem records5000_length : records5000.elems.length = 5000 :=
  List.length_replicate _ _

theorem records5000_rows : ∀ row ∈ records5000.elems, 5 < row.length := by
  intro row h
  rw [List.eq_of_mem_replicate h]
  decide

theorem records5000_rows_append :
    ∀ row ∈ (records5000.elems ++ records5000.spare).take recordLimit, 5 < row.length := by
  intro row h
  rcases List.mem_append.mp (List.mem_of_mem_take h) with h1 | h1
  · exact records5000_rows row h1
  · cases h1

/-- One batch of two texts through the goroutines: the producer sends it and
closes the channel, worker 0 runs the pipeline and sends the result, the
collecting loop appends it, the four workers exit, the result channel is
closed and the function returns the two embeddings and the count 2. -/
theorem exec_one_batch :
    exec echoPipeline 1 (initial [["a", "b"]] numWorkers)
        [.produce, .closeBatch, .receive 0, .sendResult 0, .collect, .workerExit 0,
          .workerExit 1, .workerExit 2, .workerExit 3, .closeResult, .finish] =
      some (.ok { toSend := [], batchClosed := true, batchCh := [],
                  workers := [.done, .done, .done, .done], resultCh := [],
                  resultClosed := true, output := ["a", "b"], totalProcessed := 2,
                  returned := true, calls := 1 }) := by
  rfl

/-! ### What the concurrent `extractFeatures` returns -/

/-- C5, as the code has it: for every input of at least 5000 records whose
first 5000 have the text column, and a pipeline that never fails and returns
one embedding per text, the concurrent `extractFeatures` (batch size 32, 4
workers) works on the first 5000 records only. Some schedule of the
goroutines makes it return, with exactly 5000 embeddings and the processed
count 5000; whenever it returns, it returns exactly 5000 embeddings and the
count 5000; no schedule makes it panic; and every run of the goroutines has
at most `movesLeft` steps and can be run on until the function returns. -/
theorem extractFeatures_count {E : Type} (RunPipeline : Nat → List String → RunResult E)
    (records : GoSlice (List String))
    (hN : 5000 ≤ records.elems.length)
    (hrows : ∀ row ∈ records.elems.take 5000, 5 < row.length)
    (hrun : ∀ n batch, (RunPipeline n batch).err = none ∧
      ∃ embeddings, (RunPipeline n batch).batchResult = some embeddings ∧
        embeddings.length = batch.length) :
    (∃ (schedule : List Action) (output : List E),
      extractFeatures RunPipeline records schedule = .ok (some (output, 5000)) ∧
      output.length = 5000) ∧
    (∀ (schedule : List Action) (output : List E) (total : Nat),
      extractFeatures RunPipeline records schedule = .ok (some (output, total)) →
      output.length = 5000 ∧ total = 5000) ∧
    (∀ (schedule : List Action) (failure : Failure),
      extractFeatures RunPipeline records schedule ≠ .error failure) ∧
    ∃ (cap : Nat) (init : Sys E),
      start records = .ok (cap, init) ∧
      ∀ (schedule : List Action) (s : Sys E),
        exec RunPipeline cap init schedule = some (.ok s) →
        schedule.length ≤ movesLeft init ∧
        ∃ (rest : List Action) (result : List E × Nat),
          extractFeatures RunPipeline records (schedule ++ rest) = .ok (some result) := by
  have htake : (records.elems ++ records.spare).take recordLimit
      = records.elems.take 5000 := List.take_append_of_le_length hN
  obtain ⟨batches, hstart, hprod, hflat⟩ := start_ok (E := E) records
    (by simp only [recordLimit]; omega) (by rw [htake]; exact hrows)
  have hres : ∀ n batch, ∃ embeddings, (RunPipeline n batch).batchResult = some embeddings :=
    fun n batch => (hrun n batch).2.imp fun _ h => h.1
  have hcap : 0 < recordLimit / batchSize + 1 := Nat.succ_pos _
  have hcount : ∀ (schedule : List Action) (s : Sys E),
      exec RunPipeline (recordLimit / batchSize + 1) (initial batches numWorkers) schedule
        = some (.ok s) → s.returned = true →
      s.output.length = 5000 ∧ s.totalProcessed = 5000 := by
    intro schedule s hs hret
    have hst := exec_structural schedule
      (structural_initial (E := E) batches numWorkers (by decide)) hs
    have hco := exec_counted hrun schedule (counted_initial (E := E) batches numWorkers) hs
    rw [hflat] at hco
    exact counted_returned hst hco hret
  refine ⟨?_, ?_, ?_, recordLimit / batchSize + 1, initial batches numWorkers, hstart, ?_⟩
  · obtain ⟨rest, s1, hexec, hret⟩ := exists_completion RunPipeline _ hcap hres
      (movesLeft (initial (E := E) batches numWorkers)) (initial batches numWorkers)
      (Nat.le_refl _)
    obtain ⟨hout, htot⟩ := hcount rest s1 hexec hret
    refine ⟨rest, s1.output, ?_, hout⟩
    rw [extractFeatures_of_returned hstart hexec hret, htot]
  · intro schedule output total h
    obtain ⟨s, hs, hret, ho, ht⟩ := extractFeatures_eq_some hstart h
    obtain ⟨hout, htot⟩ := hcount schedule s hs hret
    exact ⟨by rw [← ho, hout], by rw [← ht, htot]⟩
  · intro schedule failure h
    exact exec_no_panic RunPipeline _ hres schedule _ failure
      (extractFeatures_eq_error hstart h)
  · intro schedule s h
    exact exec_completes RunPipeline hres hcap hstart h

/-- Witness for the amended C5 on 5000 records with the never-failing
`echoPipeline`: a schedule that returns 5000 embeddings exists, and every
returning schedule returns 5000. -/
theorem extractFeatures_count_witness :
    5000 ≤ records5000.elems.length ∧
    (∀ row ∈ records5000.elems.take 5000, 5 < row.length) ∧
    (∀ n batch, (echoPipeline n batch).err = none ∧
      ∃ embeddings, (echoPipeline n batch).batchResult = some embeddings ∧
        embeddings.length = batch.length) ∧
    (∃ (schedule : List Action) (output : List String),
      extractFeatures echoPipeline records5000 schedule = .ok (some (output, 5000)) ∧
      output.length = 5000) ∧
    (∀ (schedule : List Action) (output : List String) (total : Nat),
      extractFeatures echoPipeline records5000 schedule = .ok (some (output, total)) →
      output.length = 5000 ∧ total = 5000) ∧
    (∀ (schedule : List Action) (failure : Failure),
      extractFeatures echoPipeline records5000 schedule ≠ .error failure) :=
  have h := extractFeatures_count echoPipeline records5000
    (Nat.le_of_eq records5000_length.symm)
    (fun row h => records5000_rows row (List.mem_of_mem_take h))
    (fun _ batch => ⟨rfl, batch, rfl, rfl⟩)
  ⟨Nat.le_of_eq records5000_length.symm,
    fun row h => records5000_rows row (List.mem_of_mem_take h),
    fun _ batch => ⟨rfl, batch, rfl, rfl⟩, h.1, h.2.1, h.2.2.1⟩

/-- C5 as stated fails: on an input of 100 records the reslice
`records[:5000]` panics (slice bounds out of range) before any goroutine
starts, so under every schedule the call returns neither 100 embeddings nor a
processed count. -/
theorem extractFeatures_hundred_records_panics :
    records100.elems.length = 100 ∧
    start (E := String) records100 = .error (.panic .sliceBoundsOutOfRange) ∧
    ∀ schedule : List Action,
      extractFeatures echoPipeline records100 schedule =
        .error (.panic .sliceBoundsOutOfRange) :=
  ⟨List.length_replicate _ _, rfl, fun _ => rfl⟩

/-- C7 fails on the code: on 5000 records with a pipeline whose first call
fails the way hugot's `RunPipeline` does, with a nil result next to the error,
the worker that takes the first batch reads `batchResult.Embeddings` before
any look at `err` and the process dies of the nil pointer dereference; and no
schedule of the goroutines makes the function return an output, so the
failing batch keeps every other batch from being collected. -/
theorem extractFeatures_nil_result_panics :
    (failFirstCall 0 ["text"]).err = some "execution error" ∧
    (∀ (n : Nat) (batch : List String),
      (failFirstCall (n + 1) batch).err = none ∧
      (failFirstCall (n + 1) batch).batchResult = some batch) ∧
    extractFeatures failFirstCall records5000 [.produce, .receive 0] =
      .error (.panic .nilDereference) ∧
    ∀ (schedule : List Action) (result : List String × Nat),
      extractFeatures failFirstCall records5000 schedule ≠ .ok (some result) := by
  obtain ⟨batches, hstart, _, hflat⟩ := start_ok (E := String) records5000
    (Nat.le_of_eq (by rw [records5000_length]; rfl)) records5000_rows_append
  have hne : batches ≠ [] := by
    intro h
    rw [h] at hflat
    cases hflat
  have hnil : ∀ batch : List String, (failFirstCall 0 batch).batchResult = none :=
    fun _ => rfl
  refine ⟨rfl, fun _ _ => ⟨rfl, rfl⟩, ?_, ?_⟩
  · have hp : exec failFirstCall (recordLimit / batchSize + 1) (initial batches numWorkers)
        [.produce, .receive 0] = some (.error (.panic .nilDereference)) :=
      first_receive_panics (Nat.succ_pos _) hnil batches hne 3
    rw [extractFeatures_of_start hstart, hp]
  · intro schedule result h
    obtain ⟨s, hs, hret, _, _⟩ := extractFeatures_eq_some hstart h
    have := never_returned hnil batches hne numWorkers (by decide) schedule s hs
    rw [this] at hret
    cases hret

end ConcurrentBaselines

end Hugot
